import Mathlib

/-!
# pg_pathman: planner hooks (`hooks.c`) and `hash_to_part_index` (`pathman.h`)

A shallow embedding of the two source files and the properties proved about
them.  C pointers to planner objects that the hooks only pass around are
plain handles; the functions of the extension and of PostgreSQL that the hooks
call but that are defined elsewhere are fields of `Externals`, so what is
proved about a hook holds for whatever those functions compute.
-/

namespace Pathman

/-! ## `pathman.h` -/

/-- Number of values of a C `uint32`. -/
def UINT32_RANGE : Nat := 2 ^ 32

/-- The function `hash_to_part_index(uint32 value, uint32 partitions)`:
`value % partitions` on 32-bit unsigned operands.  The arguments are
converted to `uint32` as a C call does; `none` stands for the undefined
remainder by zero. -/
def hash_to_part_index (value partitions : Nat) : Option Nat :=
  let value := value % UINT32_RANGE
  let partitions := partitions % UINT32_RANGE
  if partitions = 0 then none else some (value % partitions)

/-! ## Global flags and `pg_pathman_enable_assign_hook` -/

/-- The process-wide booleans read by the hooks. -/
structure Flags where
  pg_pathman_enable : Bool
  pg_pathman_enable_runtimeappend : Bool
  pg_pathman_enable_runtime_merge_append : Bool
  inheritance_disabled : Bool
  deriving DecidableEq, Repr

/-- What one run of `pg_pathman_enable_assign_hook` did: the flags it leaves
behind, whether it left through the early `return`, and the NOTICE it logged
(if any). -/
structure AssignResult where
  flags : Flags
  early_return : Bool
  notice : Option String
  deriving DecidableEq, Repr

/-- The function `pg_pathman_enable_assign_hook(bool newval, void *extra)`.
The GUC machinery stores `newval` into `pg_pathman_enable` itself after the
hook has run, so `flags.pg_pathman_enable` is still the previous value. -/
def pg_pathman_enable_assign_hook (newval : Bool) (flags : Flags) : AssignResult :=
  /- Return quickly if nothing has changed -/
  if newval == (flags.pg_pathman_enable &&
                flags.pg_pathman_enable_runtimeappend &&
                flags.pg_pathman_enable_runtime_merge_append) then
    { flags := flags, early_return := true, notice := none }
  else
    let flags := { flags with pg_pathman_enable_runtime_merge_append := newval }
    let flags := { flags with pg_pathman_enable_runtimeappend := newval }
    { flags := flags, early_return := false,
      notice := some ("RuntimeAppend and RuntimeMergeAppend nodes have been " ++
                      (if newval then "enabled" else "disabled")) }

/-! ## Nodes, assertions and `sort_rel_tlist` -/

/-- The node tags the hooks test with `IsA`. -/
inductive NodeTag where
  | T_Var
  | T_PlaceHolderVar
  | T_AppendPath
  | T_MergeAppendPath
  | T_CustomPath
  | T_Path
  deriving DecidableEq, Repr

/-- The fields of PostgreSQL's `Var` (primnodes.h) that `makeVar` fills.  An
entry of a target list is read through a `Var *` whatever its tag says, which
is what `type` records. -/
structure Var where
  type : NodeTag
  varno : Nat
  varattno : Int
  vartype : Nat
  vartypmod : Int
  varcollid : Nat
  varlevelsup : Nat
  location : Int
  deriving DecidableEq, Repr

/-- The macro `IsA(nodeptr, Var)`. -/
def IsA_Var (v : Var) : Bool := v.type == NodeTag.T_Var

/-- An abort of the backend. -/
inductive Trap where
  | assert_failed (condition : String)
  | self_compare
  deriving DecidableEq, Repr

/-- PostgreSQL's `Assert(condition)`: compiled to nothing unless the build
defines `USE_ASSERT_CHECKING`, in which case a false condition aborts. -/
def Assert (USE_ASSERT_CHECKING : Bool) (condition : Bool) (text : String) :
    Except Trap Unit :=
  if USE_ASSERT_CHECKING && !condition then .error (Trap.assert_failed text) else .ok ()

/-- Text of the first assertion of `cmp_tlist_vars`. -/
def ASSERT_IS_VAR : String := "IsA(v1, Var) && IsA(v2, Var)"

/-- Text of the assertion in the last branch of `cmp_tlist_vars`. -/
def ASSERT_ATTNO_DIFFER : String := "v1->varattno != v2->varattno"

/-- The comparator `cmp_tlist_vars(const void *a, const void *b)`: compare
Vars by varattno. -/
def cmp_tlist_vars (USE_ASSERT_CHECKING : Bool) (v1 v2 : Var) : Except Trap Int :=
  match Assert USE_ASSERT_CHECKING (IsA_Var v1 && IsA_Var v2) ASSERT_IS_VAR with
  | .error t => .error t
  | .ok () =>
    if v1.varattno > v2.varattno then .ok 1
    else if v1.varattno < v2.varattno then .ok (-1)
    else
      /- XXX: I really doubt this case is ok -/
      match Assert USE_ASSERT_CHECKING (v1.varattno != v2.varattno) ASSERT_ATTNO_DIFFER with
      | .error t => .error t
      | .ok () => .ok 0

/-- Inner loop of the insertion sort that models `qsort`: the element `x` is
moved left past every element that compares greater.  The part of the array
already sorted is held last slot first; the comparator gets the left
neighbour first, as in `cmp(pl - es, pl)`. -/
def qsort_sift {α ε : Type} (cmp : α → α → Except ε Int) (x : α) :
    List α → Except ε (List α)
  | [] => .ok [x]
  | y :: rest =>
    match cmp y x with
    | .error e => .error e
    | .ok c =>
      if c > 0 then
        match qsort_sift cmp x rest with
        | .error e => .error e
        | .ok r => .ok (y :: r)
      else .ok (x :: y :: rest)

/-- Outer loop of the insertion sort: `sorted` is the sorted part (last slot
first), the second list holds the slots still to be placed. -/
def qsort_loop {α ε : Type} (cmp : α → α → Except ε Int) :
    List α → List α → Except ε (List α)
  | sorted, [] => .ok sorted.reverse
  | sorted, x :: xs =>
    match qsort_sift cmp x sorted with
    | .error e => .error e
    | .ok sorted => qsort_loop cmp sorted xs

/-- The C library's `qsort(base, nmemb, size, compar)` on an array given as the
list of its slots.  The library function is outside the repository; it is
modelled by straight insertion, the method PostgreSQL's own `qsort` uses on
short arrays.  An abort inside the comparator ends the sort. -/
def qsort {α ε : Type} (base : List α) (cmp : α → α → Except ε Int) : Except ε (List α) :=
  qsort_loop cmp [] base

/-- PostgreSQL's `lappend(list, datum)`. -/
def lappend {α : Type} (list : List α) (datum : α) : List α := list ++ [datum]

/-- The last loop of `sort_rel_tlist`:
`for (i = 0; i < plain_tlist_size; i++) result = lappend(result, plain_tlist[i]);`
starting from `result = NIL`. -/
def sort_rel_tlist_result (plain_tlist : List Var) (plain_tlist_size : Nat) : List Var :=
  (List.range plain_tlist_size).foldl
    (fun result i => match plain_tlist[i]? with
                     | some v => lappend result v
                     | none => result) []

/-- The function `sort_rel_tlist(List *tlist)`: copy the list into the array
`plain_tlist`, `qsort` it with `cmp_tlist_vars`, and build the result list
from the array. -/
def sort_rel_tlist (USE_ASSERT_CHECKING : Bool) (tlist : List Var) : Except Trap (List Var) :=
  let plain_tlist_size := tlist.length
  let plain_tlist : List Var := tlist.foldl (fun arr v => arr ++ [v]) []
  match qsort plain_tlist (cmp_tlist_vars USE_ASSERT_CHECKING) with
  | .error t => .error t
  | .ok plain_tlist => .ok (sort_rel_tlist_result plain_tlist plain_tlist_size)

/-- The comparator as `qsort` sees it when every slot carries its position and
a call with one slot on both sides is reported. -/
def cmp_slots {α : Type} (cmp : α → α → Except Trap Int) (a b : Nat × α) : Except Trap Int :=
  if a.1 = b.1 then .error Trap.self_compare else cmp a.2 b.2

/-- The sort never hands one array slot to the comparator as both arguments
(checked on a run in which no assertion aborts). -/
def never_self_compares (tlist : List Var) : Bool :=
  match qsort tlist.enum (cmp_slots (cmp_tlist_vars false)) with
  | .error Trap.self_compare => false
  | _ => true

/-! ## Interval sets over partition indexes

`rangeset.h` and `rangeset.c` are not among the source files; the hooks use
`make_irange`, `irange_lower`, `irange_upper`, `irange_list_intersect` and
`irange_list_length` from them. -/

/-- Modelled from the spec: the type `IndexRange` of the missing `rangeset.h`,
one closed integer interval `[lo, hi]` of partition indexes (spec section 3,
IntervalSet).  An interval with `hi < lo` covers nothing. -/
structure IndexRange where
  lower : Int
  upper : Int
  deriving DecidableEq, Repr

/-- Modelled from the spec: `make_irange(lower, upper, lossy)` of the missing
`rangeset.h`, the closed interval `[lower, upper]`; the spec's intervals carry
no lossy mark. -/
def make_irange (lower upper : Int) (_lossy : Bool) : IndexRange :=
  { lower := lower, upper := upper }

/-- Modelled from the spec: `irange_lower` of the missing `rangeset.h`
(`lowerBound` of an interval). -/
def irange_lower (irange : IndexRange) : Int := irange.lower

/-- Modelled from the spec: `irange_upper` of the missing `rangeset.h`
(`upperBound` of an interval). -/
def irange_upper (irange : IndexRange) : Int := irange.upper

/-- The partition index `i` is covered by the interval set. -/
def irange_list_covers (rangeset : List IndexRange) (i : Int) : Prop :=
  ∃ r ∈ rangeset, r.lower ≤ i ∧ i ≤ r.upper

instance (rangeset : List IndexRange) (i : Int) : Decidable (irange_list_covers rangeset i) := by
  unfold irange_list_covers
  infer_instance

/-- Modelled from the spec: `irange_list_intersect` of the missing
`rangeset.c`, the spec's `intersect(A,B)`: the set of indexes covered by both
arguments, as the non-empty pairwise intersections of their intervals in the
order of `a`, then of `b` (ascending and disjoint when `a` and `b` are). -/
def irange_list_intersect (a b : List IndexRange) : List IndexRange :=
  a.flatMap fun ra =>
    b.filterMap fun rb =>
      let lower := max ra.lower rb.lower
      let upper := min ra.upper rb.upper
      if lower ≤ upper then some { lower := lower, upper := upper } else none

/-- The set of indexes an interval set covers. -/
def irange_list_indexes (rangeset : List IndexRange) : Finset Int :=
  rangeset.foldr (fun r acc => Finset.Icc r.lower r.upper ∪ acc) ∅

/-- Modelled from the spec: `irange_list_length` of the missing `rangeset.c`,
the spec's `length(A)`, the count of covered indexes. -/
def irange_list_length (rangeset : List IndexRange) : Nat :=
  (irange_list_indexes rangeset).card

/-! ## Planner data -/

/-- PostgreSQL's `CmdType`. -/
inductive CmdType where
  | CMD_UNKNOWN | CMD_SELECT | CMD_UPDATE | CMD_INSERT | CMD_DELETE | CMD_UTILITY | CMD_NOTHING
  deriving DecidableEq, Repr

/-- PostgreSQL's `JoinType`. -/
inductive JoinType where
  | JOIN_INNER | JOIN_LEFT | JOIN_FULL | JOIN_RIGHT | JOIN_SEMI | JOIN_ANTI
  | JOIN_UNIQUE_OUTER | JOIN_UNIQUE_INNER
  deriving DecidableEq, Repr

/-- PostgreSQL's macro `IS_OUTER_JOIN(jointype)`. -/
def IS_OUTER_JOIN (jointype : JoinType) : Bool :=
  jointype == JoinType.JOIN_LEFT || jointype == JoinType.JOIN_FULL ||
  jointype == JoinType.JOIN_RIGHT || jointype == JoinType.JOIN_ANTI

/-- PostgreSQL's `RelOptKind`. -/
inductive RelOptKind where
  | RELOPT_BASEREL | RELOPT_JOINREL | RELOPT_OTHER_MEMBER_REL | RELOPT_DEADREL
  deriving DecidableEq, Repr

/-- The partitioning type of `PartRelationInfo`. -/
inductive PartType where
  | PT_HASH | PT_RANGE
  deriving DecidableEq, Repr

/-- The fields of `PartRelationInfo` (`relation_info.h`, not among the source
files) that the hooks read; `children` is the Oid array behind
`dsm_array_get_pointer(&prel->children)`. -/
structure PartRelationInfo where
  children : List Nat
  children_count : Int
  parttype : PartType
  attnum : Int
  deriving DecidableEq, Repr

/-- The fields of `WalkerContext` that `hooks.c` assigns (`prel`, `econtext`,
`hasLeast`, `hasGreatest`); the declaration in the `pathman.h` at hand lists
`prel_varno` and `for_insert` instead of the last two, which `hooks.c` never
mentions. -/
structure WalkerContext where
  prel : Option PartRelationInfo
  econtext : Option Nat
  hasLeast : Bool
  hasGreatest : Bool
  deriving DecidableEq, Repr

/-- The struct `WrapperNode` of `pathman.h`; `orig` and `args` are handles of
expression nodes, `paramsel` is a C `double` taken as an exact rational. -/
structure WrapperNode where
  orig : Nat
  args : List Nat
  rangeset : List IndexRange
  found_gap : Bool
  paramsel : ℚ
  deriving DecidableEq, Repr

/-- PostgreSQL's `RestrictInfo`, reduced to its `clause` (an expression handle). -/
structure RestrictInfo where
  clause : Nat
  deriving DecidableEq, Repr

/-- PostgreSQL's `Path` as the hooks see it: the node tag, the identity of the
node, `PATH_REQ_OUTER(path)` and its pathkeys. -/
structure Path where
  type : NodeTag
  id : Nat
  req_outer : Finset Nat
  pathkeys : List Nat
  deriving DecidableEq

/-- PostgreSQL's `RelOptInfo`, the fields the hooks touch. -/
structure RelOptInfo where
  reloptkind : RelOptKind
  relid : Nat
  reltargetlist : List Var
  pathlist : List Path
  cheapest_total_path : Path
  baserestrictinfo : List RestrictInfo
  joininfo : List RestrictInfo
  has_eclass_joins : Bool
  deriving DecidableEq

/-- PostgreSQL's `RangeTblEntry`, the fields the hooks touch. -/
structure RangeTblEntry where
  relid : Nat
  inh : Bool
  deriving DecidableEq, Repr

/-- PostgreSQL's `PlannerInfo`, the fields the hooks touch.  The two arrays
hold pointers (`none` is NULL). -/
structure PlannerInfo where
  commandType : CmdType
  simple_rel_array_size : Nat
  simple_rel_array : List (Option Nat)
  simple_rte_array : List (Option Nat)
  deriving DecidableEq, Repr

/-- Everything `pathman_rel_pathlist_hook` reads or writes: the global flags
and the objects behind its arguments `root`, `rel` and `rte`. -/
structure PlannerState where
  flags : Flags
  root : PlannerInfo
  rel : RelOptInfo
  rte : RangeTblEntry
  deriving DecidableEq

/-- A call of a function defined outside `hooks.c` whose effect is not a
value the hook reads back; the hooks are described by the sequence of these
calls. -/
inductive Call where
  | set_rel_pathlist_hook_next (rti : Nat)
  | set_join_pathlist_next
  | walk_expr_tree (expr : Nat)
  | finish_least_greatest (wrap : WrapperNode)
  | append_child_relation (rti : Nat) (i : Int) (child_oid : Option Nat)
      (wrappers : List WrapperNode)
  | set_append_rel_pathlist (rti : Nat) (pathkeyAsc pathkeyDesc : Option Nat)
  | set_append_rel_size (rti : Nat)
  | create_runtimeappend_path (cur_path : Path) (param_info : Nat) (paramsel : ℚ)
  | create_runtimemergeappend_path (cur_path : Path) (param_info : Nat) (paramsel : ℚ)
  | initial_cost_nestloop (jointype : JoinType) (outer inner : Path)
  | create_nestloop_path (jointype : JoinType) (outer inner : Path) (pathkeys : List Nat)
  | add_path (new_path : Path)
  deriving DecidableEq

/-- PostgreSQL's `JoinPathExtraData`, the fields the join hook reads. -/
structure JoinPathExtraData where
  restrictlist : List RestrictInfo
  sjinfo_jointype : JoinType
  deriving DecidableEq, Repr

/-- The functions the hooks call that are defined outside `hooks.c`, as far
as the hooks use their results.  The two `*_next` fields are the saved hook
pointers (`none` is NULL); `walk_expr_tree` and `finish_least_greatest` get the
`WalkerContext` and return it as they leave it. -/
structure Externals where
  set_rel_pathlist_hook_next : Option (PlannerState → Nat → PlannerState)
  set_join_pathlist_next : Bool
  get_pathman_relation_info : Nat → Option PartRelationInfo × Bool
  get_rte_attribute_type : RangeTblEntry → Int → Nat × Int × Nat
  lookup_type_cache : Nat → Nat × Nat
  build_expression_pathkey : Var → Nat → List Nat
  walk_expr_tree : Nat → WalkerContext → WrapperNode × WalkerContext
  finish_least_greatest : WrapperNode → WalkerContext → WrapperNode × WalkerContext
  set_append_rel_pathlist : PlannerState → Nat → Option Nat → Option Nat → List Path
  get_appendrel_parampathinfo : RelOptInfo → Finset Nat → Nat
  create_runtimeappend_path : Path → Nat → ℚ → Path
  create_runtimemergeappend_path : Path → Nat → ℚ → Path
  add_path : List Path → Path → List Path
  extract_actual_join_clauses : List RestrictInfo → List Nat × List Nat
  extract_actual_clauses : List RestrictInfo → Bool → List Nat
  build_join_pathkeys : JoinType → List Nat → List Nat
  create_nestloop_path : JoinType → Path → Path → List RestrictInfo → List Nat → Path

/-- PostgreSQL's `makeVar`. -/
def makeVar (varno : Nat) (varattno : Int) (vartype : Nat) (vartypmod : Int)
    (varcollid : Nat) (varlevelsup : Nat) : Var :=
  { type := NodeTag.T_Var, varno := varno, varattno := varattno, vartype := vartype,
    vartypmod := vartypmod, varcollid := varcollid, varlevelsup := varlevelsup,
    location := -1 }

/-! ## `pathman_rel_pathlist_hook` -/

/-- The variables of the loop over `rel->baserestrictinfo` (lines 208-222). -/
structure CollectState where
  context : WalkerContext
  paramsel : ℚ
  wrappers : List WrapperNode
  ranges : List IndexRange
  calls : List Call

/-- One pass of the loop over `rel->baserestrictinfo`; `last` is `!lc->next`. -/
def collect_step (ext : Externals) (st : CollectState) (rinfo : RestrictInfo) (last : Bool) :
    CollectState :=
  let walked := ext.walk_expr_tree rinfo.clause st.context
  let finished := if last then ext.finish_least_greatest walked.1 walked.2 else walked
  let wrap := finished.1
  { context := finished.2,
    paramsel := st.paramsel * wrap.paramsel,
    wrappers := lappend st.wrappers wrap,
    ranges := irange_list_intersect st.ranges wrap.rangeset,
    calls := st.calls ++ [Call.walk_expr_tree rinfo.clause] ++
      (if last then [Call.finish_least_greatest walked.1] else []) }

/-- The loop `foreach(lc, rel->baserestrictinfo)`: make wrappers over
restrictions and collect the final rangeset. -/
def collect_loop (ext : Externals) : CollectState → List RestrictInfo → CollectState
  | st, [] => st
  | st, rinfo :: rest => collect_loop ext (collect_step ext st rinfo rest.isEmpty) rest

/-- The loop `for (i = 0; i < n; i++) new_array[i] = old_array[i]`; a slot
past the end of the old array reads as NULL. -/
def copy_relations (n : Nat) (old_array new_array : List (Option Nat)) : List (Option Nat) :=
  (List.range n).foldl (fun arr i => arr.set i (old_array.getD i none)) new_array

/-- Expand `simple_rel_array` and `simple_rte_array` by `len` zeroed slots
(lines 230-253). -/
def expand_simple_arrays (root : PlannerInfo) (len : Nat) : PlannerInfo :=
  let new_rel_array := List.replicate (root.simple_rel_array_size + len) (none : Option Nat)
  let new_rte_array := List.replicate (root.simple_rel_array_size + len) (none : Option Nat)
  let new_rel_array := copy_relations root.simple_rel_array_size root.simple_rel_array new_rel_array
  let new_rte_array := copy_relations root.simple_rel_array_size root.simple_rte_array new_rte_array
  { root with
    simple_rel_array_size := root.simple_rel_array_size + len,
    simple_rel_array := new_rel_array,
    simple_rte_array := new_rte_array }

/-- The values `i` takes in `for (i = lower; i <= upper; i++)`. -/
def for_range (lower upper : Int) : List Int :=
  (List.range (upper + 1 - lower).toNat).map fun (k : Nat) => lower + (k : Int)

/-- The read `dsm_arr[i]`; `none` is a read outside the array. -/
def dsm_arr_at (dsm_arr : List Nat) (i : Int) : Option Nat :=
  if 0 ≤ i then dsm_arr[i.toNat]? else none

/-- The loop of lines 263-269: iterate all indexes in the rangeset and append
the corresponding child relations. -/
def append_child_relations (rti : Nat) (dsm_arr : List Nat) (wrappers : List WrapperNode)
    (ranges : List IndexRange) : List Call :=
  ranges.flatMap fun irange =>
    (for_range (irange_lower irange) (irange_upper irange)).map fun i =>
      Call.append_child_relation rti i (dsm_arr_at dsm_arr i) wrappers

/-- The variables of the loop over `rel->pathlist` (lines 283-308). -/
structure PathLoopState where
  pathlist : List Path
  calls : List Call

/-- One pass of the loop over `rel->pathlist`. -/
def runtime_path_step (ext : Externals) (flags : Flags) (rel : RelOptInfo) (paramsel : ℚ)
    (st : PathLoopState) (cur_path : Path) : PathLoopState :=
  let inner_required := cur_path.req_outer
  let ppi := ext.get_appendrel_parampathinfo rel inner_required
  /- Skip if rel contains some join-related stuff or path type mismatched -/
  if !(cur_path.type == NodeTag.T_AppendPath || cur_path.type == NodeTag.T_MergeAppendPath) ||
      rel.has_eclass_joins || !rel.joininfo.isEmpty then st
  else if cur_path.type == NodeTag.T_AppendPath && flags.pg_pathman_enable_runtimeappend then
    let inner_path := ext.create_runtimeappend_path cur_path ppi paramsel
    { pathlist := ext.add_path st.pathlist inner_path,
      calls := st.calls ++
        [Call.create_runtimeappend_path cur_path ppi paramsel, Call.add_path inner_path] }
  else if cur_path.type == NodeTag.T_MergeAppendPath &&
      flags.pg_pathman_enable_runtime_merge_append then
    let inner_path := ext.create_runtimemergeappend_path cur_path ppi paramsel
    { pathlist := ext.add_path st.pathlist inner_path,
      calls := st.calls ++
        [Call.create_runtimemergeappend_path cur_path ppi paramsel, Call.add_path inner_path] }
  else st

/-- The loop `foreach (lc, rel->pathlist)` of lines 283-308, run over the paths
that `set_append_rel_pathlist` left in the list. -/
def runtime_path_loop (ext : Externals) (flags : Flags) (rel : RelOptInfo) (paramsel : ℚ) :
    PathLoopState :=
  rel.pathlist.foldl (runtime_path_step ext flags rel paramsel)
    { pathlist := rel.pathlist, calls := [] }

/-- The local variables `wrappers`, `ranges` and `paramsel` of
`pathman_rel_pathlist_hook` once the loop over the restrictions is done. -/
structure Pruning where
  wrappers : List WrapperNode
  ranges : List IndexRange
  paramsel : ℚ
  deriving DecidableEq

/-- Outcome of `pathman_rel_pathlist_hook`: the planner state it leaves, the
calls it made in order, the abort that ended it (if any), and its pruning
variables when it reached the pruning block. -/
structure HookResult where
  state : PlannerState
  calls : List Call
  trap : Option Trap
  pruning : Option Pruning

/-- The state after `set_rel_pathlist_hook_next(root, rel, rti, rte)`, when
that pointer is set. -/
def invoke_original_hook (ext : Externals) (s : PlannerState) (rti : Nat) : PlannerState :=
  match ext.set_rel_pathlist_hook_next with
  | some next => next s rti
  | none => s

/-- The calls made by invoking the original hook. -/
def original_hook_calls (ext : Externals) (rti : Nat) : List Call :=
  match ext.set_rel_pathlist_hook_next with
  | some _ => [Call.set_rel_pathlist_hook_next rti]
  | none => []

/-- The block `if (prel->parttype == PT_RANGE)` (lines 166-197): get pathkeys
for ascending and descending sort by partition column; the pair is
`(pathkeyAsc, pathkeyDesc)`, both NULL for other partitioning types. -/
def partition_pathkeys (ext : Externals) (rte : RangeTblEntry) (rti : Nat)
    (prel : PartRelationInfo) : Option Nat × Option Nat :=
  if prel.parttype = PartType.PT_RANGE then
    /- Make Var from patition column -/
    let attr := ext.get_rte_attribute_type rte prel.attnum
    let var := makeVar rti prel.attnum attr.1 attr.2.1 attr.2.2 0
    let var := { var with location := -1 }
    /- Determine operator type -/
    let tce := ext.lookup_type_cache var.vartype
    /- Make pathkeys -/
    ((ext.build_expression_pathkey var tce.1).head?,
     (ext.build_expression_pathkey var tce.2).head?)
  else (none, none)

/-- The block `if (ranges)` (lines 228-254): expand `simple_rel_array` and
`simple_rte_array` by `irange_list_length(ranges)` slots unless the rangeset
is NIL. -/
def expand_for_ranges (root : PlannerInfo) (ranges : List IndexRange) : PlannerInfo :=
  if ranges ≠ [] then
    let len := irange_list_length ranges
    expand_simple_arrays root len
  else root

/-- The block `if (prel != NULL && found)` of `pathman_rel_pathlist_hook`
(lines 155-309); `calls` are the calls made before it. -/
def pathman_rel_pathlist_prune (USE_ASSERT_CHECKING : Bool) (ext : Externals)
    (s : PlannerState) (rti : Nat) (prel : PartRelationInfo) (calls : List Call) : HookResult :=
  let pathkeys := partition_pathkeys ext s.rte rti prel
  let pathkeyAsc := pathkeys.1
  let pathkeyDesc := pathkeys.2
  let rte := { s.rte with inh := true }
  let dsm_arr := prel.children
  let ranges := [make_irange 0 (prel.children_count - 1) false]
  let context : WalkerContext :=
    { prel := some prel, econtext := none, hasLeast := false, hasGreatest := false }
  /- Make wrappers over restrictions and collect final rangeset -/
  let collected := collect_loop ext
    { context := context, paramsel := 1, wrappers := [], ranges := ranges, calls := calls }
    s.rel.baserestrictinfo
  let paramsel := collected.paramsel
  let wrappers := collected.wrappers
  let ranges := collected.ranges
  let pruning : Pruning := { wrappers := wrappers, ranges := ranges, paramsel := paramsel }
  /- Expand simple_rte_array and simple_rel_array -/
  let root := expand_for_ranges s.root ranges
  /- Target list should be sorted in physical order for custom nodes to work -/
  match sort_rel_tlist USE_ASSERT_CHECKING s.rel.reltargetlist with
  | .error t =>
    { state := { s with root := root, rte := rte }, calls := collected.calls,
      trap := some t, pruning := some pruning }
  | .ok reltargetlist =>
    let rel := { s.rel with reltargetlist := reltargetlist }
    /- Iterate all indexes in rangeset and append corresponding child relations. -/
    let calls := collected.calls ++ append_child_relations rti dsm_arr wrappers ranges
    /- Clear old path list -/
    let rel := { rel with pathlist := [] }
    let s := { s with root := root, rel := rel, rte := rte }
    let rel := { rel with pathlist := ext.set_append_rel_pathlist s rti pathkeyAsc pathkeyDesc }
    let s := { s with rel := rel }
    let calls := calls ++ [Call.set_append_rel_pathlist rti pathkeyAsc pathkeyDesc,
                           Call.set_append_rel_size rti]
    /- No need to go further, return -/
    if !(s.flags.pg_pathman_enable_runtimeappend ||
         s.flags.pg_pathman_enable_runtime_merge_append) then
      { state := s, calls := calls, trap := none, pruning := some pruning }
    else
      let looped := runtime_path_loop ext s.flags rel paramsel
      { state := { s with rel := { rel with pathlist := looped.pathlist } },
        calls := calls ++ looped.calls, trap := none, pruning := some pruning }

/-- The function `pathman_rel_pathlist_hook(root, rel, rti, rte)`: cope with
simple relations. -/
def pathman_rel_pathlist_hook (USE_ASSERT_CHECKING : Bool) (ext : Externals)
    (s : PlannerState) (rti : Nat) : HookResult :=
  /- Invoke original hook if needed -/
  let calls := original_hook_calls ext rti
  let s := invoke_original_hook ext s rti
  if !s.flags.pg_pathman_enable then
    { state := s, calls := calls, trap := none, pruning := none }
  /- This works only for SELECT queries (at least for now) -/
  else if s.root.commandType != CmdType.CMD_SELECT || !s.flags.inheritance_disabled then
    { state := s, calls := calls, trap := none, pruning := none }
  else
    /- Lookup partitioning information for parent relation -/
    let looked := ext.get_pathman_relation_info s.rte.relid
    match looked.1 with
    | some prel =>
      if looked.2 then pathman_rel_pathlist_prune USE_ASSERT_CHECKING ext s rti prel calls
      else { state := s, calls := calls, trap := none, pruning := none }
    | none => { state := s, calls := calls, trap := none, pruning := none }

/-! ## `pathman_join_pathlist_hook` -/

/-- The variables of the loop over `joinclauses` (lines 83-95). -/
structure JoinSelState where
  paramsel : ℚ
  wrappers : List WrapperNode
  calls : List Call

/-- One pass of the loop over `joinclauses`; the four context fields are
assigned afresh in every pass. -/
def join_paramsel_step (ext : Externals) (inner_prel : PartRelationInfo) (st : JoinSelState)
    (clause : Nat) : JoinSelState :=
  let context : WalkerContext :=
    { prel := some inner_prel, econtext := none, hasLeast := false, hasGreatest := false }
  let wrap := (ext.walk_expr_tree clause context).1
  { paramsel := st.paramsel * wrap.paramsel,
    wrappers := st.wrappers ++ [wrap],
    calls := st.calls ++ [Call.walk_expr_tree clause] }

/-- One pass of the loop over `innerrel->pathlist` (lines 97-127). -/
def join_path_step (ext : Externals) (outerrel innerrel : RelOptInfo) (jointype : JoinType)
    (extra : JoinPathExtraData) (paramsel : ℚ) (calls : List Call) (cur_inner_path : Path) :
    List Call :=
  if !(cur_inner_path.type == NodeTag.T_AppendPath) then calls
  else
    let outer := outerrel.cheapest_total_path
    let inner_required := cur_inner_path.req_outer ∪ {outerrel.relid}
    let ppi := ext.get_appendrel_parampathinfo innerrel inner_required
    let inner := ext.create_runtimeappend_path cur_inner_path ppi paramsel
    let pathkeys := ext.build_join_pathkeys jointype outer.pathkeys
    let nest_path := ext.create_nestloop_path jointype outer inner extra.restrictlist pathkeys
    calls ++ [Call.create_runtimeappend_path cur_inner_path ppi paramsel,
              Call.initial_cost_nestloop jointype outer inner,
              Call.create_nestloop_path jointype outer inner pathkeys,
              Call.add_path nest_path]

/-- Outcome of `pathman_join_pathlist_hook`: the calls it made and, when it
reached the loop over the join clauses, the wrappers it walked and the
selectivity it computed. -/
structure JoinHookResult where
  calls : List Call
  wrappers : List WrapperNode
  paramsel : Option ℚ

/-- The function `pathman_join_pathlist_hook(root, joinrel, outerrel, innerrel,
jointype, extra)`: take care of joins.  The argument `inner_entry` is the entry
`root->simple_rte_array[innerrel->relid]` points to. -/
def pathman_join_pathlist_hook (ext : Externals) (flags : Flags) (inner_entry : RangeTblEntry)
    (outerrel innerrel : RelOptInfo) (jointype : JoinType) (extra : JoinPathExtraData) :
    JoinHookResult :=
  let joinrestrictclauses := extra.restrictlist
  let calls := if ext.set_join_pathlist_next then [Call.set_join_pathlist_next] else []
  let jointype :=
    if jointype == JoinType.JOIN_UNIQUE_OUTER || jointype == JoinType.JOIN_UNIQUE_INNER
    then JoinType.JOIN_INNER else jointype
  if jointype == JoinType.JOIN_FULL || !flags.pg_pathman_enable_runtimeappend then
    { calls := calls, wrappers := [], paramsel := none }
  else if innerrel.reloptkind != RelOptKind.RELOPT_BASEREL || !inner_entry.inh then
    { calls := calls, wrappers := [], paramsel := none }
  else
    match (ext.get_pathman_relation_info inner_entry.relid).1 with
    | none => { calls := calls, wrappers := [], paramsel := none } /- Obviously not our case -/
    | some inner_prel =>
      /- Extract join clauses which will separate partitions -/
      let joinclauses :=
        if IS_OUTER_JOIN extra.sjinfo_jointype then
          (ext.extract_actual_join_clauses joinrestrictclauses).1
        else
          /- We can treat all clauses alike for an inner join -/
          ext.extract_actual_clauses joinrestrictclauses false
      let sel := joinclauses.foldl (join_paramsel_step ext inner_prel)
        { paramsel := 1, wrappers := [], calls := calls }
      let paramsel := sel.paramsel
      { calls := innerrel.pathlist.foldl
          (join_path_step ext outerrel innerrel jointype extra paramsel) sel.calls,
        wrappers := sel.wrappers,
        paramsel := some paramsel }

/-- The join clauses `pathman_join_pathlist_hook` walks. -/
def join_clauses (ext : Externals) (extra : JoinPathExtraData) : List Nat :=
  if IS_OUTER_JOIN extra.sjinfo_jointype then
    (ext.extract_actual_join_clauses extra.restrictlist).1
  else ext.extract_actual_clauses extra.restrictlist false

/-! ## Notions used in the statements -/

/-- The `wrap` that each pass of the loop over `rel->baserestrictinfo` holds
when it reads `wrap->paramsel` and `wrap->rangeset`: the node returned by
`walk_expr_tree` for the clause, for the last clause after
`finish_least_greatest` has seen it; the context is handed from pass to
pass. -/
def clause_wrappers (ext : Externals) : WalkerContext → List RestrictInfo → List WrapperNode
  | _, [] => []
  | context, rinfo :: rest =>
    let walked := ext.walk_expr_tree rinfo.clause context
    let finished := if rest.isEmpty then ext.finish_least_greatest walked.1 walked.2 else walked
    finished.1 :: clause_wrappers ext finished.2 rest

/-- The context `pathman_rel_pathlist_hook` sets up before its loop. -/
def initial_context (prel : PartRelationInfo) : WalkerContext :=
  { prel := some prel, econtext := none, hasLeast := false, hasGreatest := false }

/-- The hook reaches its pruning block for `prel`: after the original hook
the extension is enabled, the query is a SELECT, inheritance is disabled, and
the lookup for `rte->relid` finds `prel`. -/
def reaches_pruning (ext : Externals) (s : PlannerState) (rti : Nat)
    (prel : PartRelationInfo) : Prop :=
  (invoke_original_hook ext s rti).flags.pg_pathman_enable = true ∧
  (invoke_original_hook ext s rti).root.commandType = CmdType.CMD_SELECT ∧
  (invoke_original_hook ext s rti).flags.inheritance_disabled = true ∧
  ext.get_pathman_relation_info (invoke_original_hook ext s rti).rte.relid = (some prel, true)

/-- The calls of `append_child_relation` in a call sequence, as pairs of the
partition index and the child Oid passed. -/
def appended_children (calls : List Call) : List (Int × Option Nat) :=
  calls.filterMap fun c =>
    match c with
    | Call.append_child_relation _ i child_oid _ => some (i, child_oid)
    | _ => none

/-- The clauses passed to `walk_expr_tree` in a call sequence. -/
def walked_clauses (calls : List Call) : List Nat :=
  calls.filterMap fun c =>
    match c with
    | Call.walk_expr_tree expr => some expr
    | _ => none

/-- The selectivities passed to `create_runtimeappend_path` and
`create_runtimemergeappend_path` in a call sequence. -/
def passed_paramsel (calls : List Call) : List ℚ :=
  calls.filterMap fun c =>
    match c with
    | Call.create_runtimeappend_path _ _ paramsel => some paramsel
    | Call.create_runtimemergeappend_path _ _ paramsel => some paramsel
    | _ => none

/-- The target list passes both assertions of `cmp_tlist_vars`: every entry
is a `Var` and no two share a varattno. -/
def tlist_asserts_hold (tlist : List Var) : Prop :=
  (∀ v ∈ tlist, IsA_Var v = true) ∧ tlist.Pairwise (fun a b => a.varattno ≠ b.varattno)

/-- The partition indexes the loop of lines 263-269 visits, in order. -/
def visited_indexes (ranges : List IndexRange) : List Int :=
  ranges.flatMap fun irange => for_range (irange_lower irange) (irange_upper irange)

/-- The final rangeset is a list of ascending, pairwise disjoint intervals with
`lower <= upper` inside `[0, children_count - 1]`. -/
def rangeset_well_formed (ranges : List IndexRange) (children_count : Int) : Prop :=
  ranges.Pairwise (fun a b => a.upper < b.lower) ∧
  ∀ r ∈ ranges, r.lower ≤ r.upper ∧ 0 ≤ r.lower ∧ r.upper ≤ children_count - 1

/-- The full range `[0, children_count - 1]` the hook starts from. -/
def full_rangeset (prel : PartRelationInfo) : List IndexRange :=
  [make_irange 0 (prel.children_count - 1) false]

/-! ## A sample relation and planner state -/

/-- A hash-partitioned relation with four partitions. -/
def sample_prel : PartRelationInfo :=
  { children := [16401, 16402, 16403, 16404], children_count := 4,
    parttype := PartType.PT_HASH, attnum := 1 }

/-- A `Var` of relation 1 for the attribute `attno`. -/
def sample_var (attno : Int) : Var := makeVar 1 attno 23 (-1) 0 0

/-- A plain path. -/
def sample_path (tag : NodeTag) (id : Nat) : Path :=
  { type := tag, id := id, req_outer := ∅, pathkeys := [] }

/-- Sample behaviour of the functions outside `hooks.c`: the clause with
handle `c > 0` is walked to the rangeset `[0, c]`, the clause 0 to the empty
rangeset, each with selectivity `1/2`, and
`finish_least_greatest` cuts the last wrapper down to its indexes `>= 1`;
relation 16400 is partitioned as `sample_prel`. -/
def sample_externals : Externals :=
  { set_rel_pathlist_hook_next := none,
    set_join_pathlist_next := false,
    get_pathman_relation_info := fun relid =>
      if relid = 16400 then (some sample_prel, true) else (none, false),
    get_rte_attribute_type := fun _ _ => (23, -1, 0),
    lookup_type_cache := fun _ => (97, 521),
    build_expression_pathkey := fun _ opno => [opno],
    walk_expr_tree := fun expr context =>
      ({ orig := expr, args := [],
         rangeset := if expr = 0 then [] else [make_irange 0 (Int.ofNat expr) true],
         found_gap := false, paramsel := 1 / 2 }, context),
    finish_least_greatest := fun wrap context =>
      ({ wrap with rangeset := irange_list_intersect wrap.rangeset [make_irange 1 3 true] },
       { context with hasLeast := false, hasGreatest := false }),
    set_append_rel_pathlist := fun _ _ _ _ => [sample_path NodeTag.T_AppendPath 7],
    get_appendrel_parampathinfo := fun _ _ => 0,
    create_runtimeappend_path := fun cur _ _ => sample_path NodeTag.T_CustomPath (cur.id + 1),
    create_runtimemergeappend_path := fun cur _ _ =>
      sample_path NodeTag.T_CustomPath (cur.id + 2),
    add_path := fun pathlist new_path => new_path :: pathlist,
    extract_actual_join_clauses := fun l => (l.map (fun r => r.clause), []),
    extract_actual_clauses := fun l _ => l.map (fun r => r.clause),
    build_join_pathkeys := fun _ keys => keys,
    create_nestloop_path := fun _ outer _ _ _ => sample_path NodeTag.T_Path (outer.id + 100) }

/-- A SELECT over relation 16400 with the restriction clauses `clauses`, two
target columns in the order 2, 1, and three slots in the planner arrays. -/
def sample_state (clauses : List Nat) : PlannerState :=
  { flags := { pg_pathman_enable := true, pg_pathman_enable_runtimeappend := true,
               pg_pathman_enable_runtime_merge_append := true, inheritance_disabled := true },
    root := { commandType := CmdType.CMD_SELECT, simple_rel_array_size := 3,
              simple_rel_array := [none, some 1, some 2],
              simple_rte_array := [none, some 11, some 12] },
    rel := { reloptkind := RelOptKind.RELOPT_BASEREL, relid := 1,
             reltargetlist := [sample_var 2, sample_var 1],
             pathlist := [sample_path NodeTag.T_Path 3],
             cheapest_total_path := sample_path NodeTag.T_Path 3,
             baserestrictinfo := clauses.map (fun c => { clause := c }),
             joininfo := [], has_eclass_joins := false },
    rte := { relid := 16400, inh := false } }

/-- The pruning variables of the hook on `sample_state [2, 3]`. -/
def sample_pruning : Pruning :=
  { wrappers := clause_wrappers sample_externals (initial_context sample_prel)
      (sample_state [2, 3]).rel.baserestrictinfo,
    ranges := ((clause_wrappers sample_externals (initial_context sample_prel)
      (sample_state [2, 3]).rel.baserestrictinfo).map (fun w => w.rangeset)).foldl
        irange_list_intersect (full_rangeset sample_prel),
    paramsel := ((clause_wrappers sample_externals (initial_context sample_prel)
      (sample_state [2, 3]).rel.baserestrictinfo).map (fun w => w.paramsel)).prod }

/-! ## Lemmas on the comparator and the sort -/

theorem cmp_tlist_vars_release (v1 v2 : Var) :
    cmp_tlist_vars false v1 v2 =
      .ok (if v1.varattno > v2.varattno then 1 else if v1.varattno < v2.varattno then -1 else 0) := by
  unfold cmp_tlist_vars Assert
  simp only [Bool.false_and, Bool.false_eq_true, if_false]
  split_ifs <;> rfl

theorem cmp_tlist_vars_checked (v1 v2 : Var) :
    cmp_tlist_vars true v1 v2 =
      if (IsA_Var v1 && IsA_Var v2) = false then .error (Trap.assert_failed ASSERT_IS_VAR)
      else if v1.varattno > v2.varattno then .ok 1
      else if v1.varattno < v2.varattno then .ok (-1)
      else .error (Trap.assert_failed ASSERT_ATTNO_DIFFER) := by
  unfold cmp_tlist_vars Assert
  by_cases ht : (IsA_Var v1 && IsA_Var v2) = true
  · simp only [ht, Bool.true_and, Bool.not_true, Bool.false_eq_true, if_false]
    by_cases h1 : v1.varattno > v2.varattno
    · simp [h1]
    · by_cases h2 : v1.varattno < v2.varattno
      · simp [h1, h2]
      · have he : v1.varattno = v2.varattno := by omega
        simp [h1, h2, he]
  · have hf : (IsA_Var v1 && IsA_Var v2) = false := by simpa using ht
    simp [hf]

theorem cmp_tlist_vars_sign (b : Bool) (v1 v2 : Var) (c : Int)
    (h : cmp_tlist_vars b v1 v2 = .ok c) : 0 < c ↔ v2.varattno < v1.varattno := by
  cases b
  · rw [cmp_tlist_vars_release] at h
    split_ifs at h with h1 h2 <;> cases h <;> constructor <;> intro hh <;> omega
  · rw [cmp_tlist_vars_checked] at h
    split_ifs at h with h0 h1 h2 <;> cases h <;> constructor <;> intro hh <;> omega

theorem cmp_tlist_vars_checked_ne (v1 v2 : Var) (c : Int)
    (h : cmp_tlist_vars true v1 v2 = .ok c) : v1.varattno ≠ v2.varattno := by
  rw [cmp_tlist_vars_checked] at h
  split_ifs at h with h0 h1 h2 <;> cases h <;> omega

theorem cmp_tlist_vars_checked_ok (v1 v2 : Var) (h1 : IsA_Var v1 = true) (h2 : IsA_Var v2 = true)
    (hne : v1.varattno ≠ v2.varattno) : ∃ c, cmp_tlist_vars true v1 v2 = .ok c := by
  rw [cmp_tlist_vars_checked]
  simp only [h1, h2, Bool.and_self, Bool.true_eq_false, if_false]
  by_cases hgt : v1.varattno > v2.varattno
  · exact ⟨1, by simp [hgt]⟩
  · have hlt : v1.varattno < v2.varattno := by omega
    exact ⟨-1, by simp [hgt, hlt]⟩

theorem cmp_tlist_vars_checked_error (v1 v2 : Var) (t : Trap)
    (h1 : IsA_Var v1 = true) (h2 : IsA_Var v2 = true)
    (h : cmp_tlist_vars true v1 v2 = .error t) :
    t = Trap.assert_failed ASSERT_ATTNO_DIFFER ∧ v1.varattno = v2.varattno := by
  rw [cmp_tlist_vars_checked] at h
  simp only [h1, h2, Bool.and_self, Bool.true_eq_false, if_false] at h
  split_ifs at h with h3 h4
  cases h
  exact ⟨rfl, by omega⟩

theorem qsort_sift_perm {α ε : Type} (cmp : α → α → Except ε Int) (x : α) :
    ∀ (rp r : List α), qsort_sift cmp x rp = .ok r → r.Perm (x :: rp) := by
  intro rp
  induction rp with
  | nil => intro r h; simp only [qsort_sift] at h; cases h; exact List.Perm.refl _
  | cons y rest ih =>
    intro r h
    simp only [qsort_sift] at h
    cases hc : cmp y x with
    | error e => rw [hc] at h; cases h
    | ok c =>
      rw [hc] at h
      by_cases hpos : c > 0
      · simp only [hpos, if_true] at h
        cases hs : qsort_sift cmp x rest with
        | error e => rw [hs] at h; cases h
        | ok r2 =>
          rw [hs] at h
          cases h
          exact ((ih r2 hs).cons y).trans (List.Perm.swap x y rest)
      · simp only [hpos, if_false] at h
        cases h
        exact List.Perm.refl _

theorem qsort_sift_ok {α ε : Type} (cmp : α → α → Except ε Int) (x : α) :
    ∀ (rp : List α), (∀ y ∈ rp, ∃ c, cmp y x = .ok c) → ∃ r, qsort_sift cmp x rp = .ok r := by
  intro rp
  induction rp with
  | nil => intro _; exact ⟨[x], rfl⟩
  | cons y rest ih =>
    intro h
    obtain ⟨c, hc⟩ := h y (List.mem_cons_self _ _)
    obtain ⟨r2, hr2⟩ := ih (fun z hz => h z (List.mem_cons_of_mem _ hz))
    simp only [qsort_sift, hc, hr2]
    by_cases hpos : c > 0
    · exact ⟨y :: r2, by simp [hpos]⟩
    · exact ⟨x :: y :: rest, by simp [hpos]⟩

theorem qsort_sift_error {α ε : Type} (cmp : α → α → Except ε Int) (x : α) (e : ε) :
    ∀ (rp : List α), qsort_sift cmp x rp = .error e → ∃ y ∈ rp, cmp y x = .error e := by
  intro rp
  induction rp with
  | nil => intro h; simp only [qsort_sift] at h; cases h
  | cons y rest ih =>
    intro h
    simp only [qsort_sift] at h
    cases hc : cmp y x with
    | error e2 => rw [hc] at h; cases h; exact ⟨y, List.mem_cons_self _ _, hc⟩
    | ok c =>
      rw [hc] at h
      by_cases hpos : c > 0
      · simp only [hpos, if_true] at h
        cases hs : qsort_sift cmp x rest with
        | error e2 =>
          rw [hs] at h; cases h
          obtain ⟨z, hz, hze⟩ := ih hs
          exact ⟨z, List.mem_cons_of_mem _ hz, hze⟩
        | ok r2 => rw [hs] at h; cases h
      · simp only [hpos, if_false] at h
        cases h

/-- Sifting keeps the sorted part sorted, for any order `lt` on keys that the
comparator decides (`lt` is `<` or `≤` composed with the key). -/
theorem qsort_sift_sorted {α ε : Type} (cmp : α → α → Except ε Int) (S : α → α → Prop)
    (hpos : ∀ a b c, cmp a b = .ok c → c > 0 → S a b)
    (hneg : ∀ a b c, cmp a b = .ok c → ¬ c > 0 → S b a)
    (htrans : ∀ a b c, S a b → S b c → S a c) (x : α) :
    ∀ (rp r : List α), qsort_sift cmp x rp = .ok r → rp.Pairwise S → r.Pairwise S := by
  intro rp
  induction rp with
  | nil => intro r h _; simp only [qsort_sift] at h; cases h; simp
  | cons y rest ih =>
    intro r h hs
    simp only [qsort_sift] at h
    rw [List.pairwise_cons] at hs
    cases hc : cmp y x with
    | error e => rw [hc] at h; cases h
    | ok c =>
      rw [hc] at h
      by_cases hp : c > 0
      · simp only [hp, if_true] at h
        cases hs2 : qsort_sift cmp x rest with
        | error e => rw [hs2] at h; cases h
        | ok r2 =>
          rw [hs2] at h
          cases h
          rw [List.pairwise_cons]
          refine ⟨?_, ih r2 hs2 hs.2⟩
          intro z hz
          have hz2 : z ∈ x :: rest := (qsort_sift_perm cmp x rest r2 hs2).subset hz
          rcases List.mem_cons.mp hz2 with hzx | hzr
          · rw [hzx]; exact hpos y x c hc hp
          · exact hs.1 z hzr
      · simp only [hp, if_false] at h
        cases h
        have hxy : S x y := hneg y x c hc hp
        rw [List.pairwise_cons]
        refine ⟨?_, List.pairwise_cons.mpr hs⟩
        intro z hz
        rcases List.mem_cons.mp hz with hzy | hzr
        · rw [hzy]; exact hxy
        · exact htrans x y z hxy (hs.1 z hzr)

theorem qsort_loop_perm {α ε : Type} (cmp : α → α → Except ε Int) :
    ∀ (xs rp out : List α), qsort_loop cmp rp xs = .ok out → out.Perm (rp.reverse ++ xs) := by
  intro xs
  induction xs with
  | nil => intro rp out h; simp only [qsort_loop] at h; cases h; simp
  | cons x xs ih =>
    intro rp out h
    simp only [qsort_loop] at h
    cases hs : qsort_sift cmp x rp with
    | error e => rw [hs] at h; cases h
    | ok rp2 =>
      rw [hs] at h
      have h1 := ih rp2 out h
      have h2 : rp2.Perm (x :: rp) := qsort_sift_perm cmp x rp rp2 hs
      have h3 : (rp2.reverse ++ xs).Perm (rp.reverse ++ x :: xs) := by
        have h4 : rp2.reverse.Perm (rp.reverse ++ [x]) := by
          refine (List.reverse_perm rp2).trans (h2.trans ?_)
          have h5 : (x :: rp).Perm (x :: rp.reverse) := (List.reverse_perm rp).symm.cons x
          exact h5.trans (List.perm_append_singleton x rp.reverse).symm
        have h6 := h4.append_right xs
        simpa using h6
      exact h1.trans h3

theorem qsort_loop_sorted {α ε : Type} (cmp : α → α → Except ε Int) (S : α → α → Prop)
    (hpos : ∀ a b c, cmp a b = .ok c → c > 0 → S a b)
    (hneg : ∀ a b c, cmp a b = .ok c → ¬ c > 0 → S b a)
    (htrans : ∀ a b c, S a b → S b c → S a c) :
    ∀ (xs rp out : List α), qsort_loop cmp rp xs = .ok out → rp.Pairwise S →
      out.Pairwise (fun a b => S b a) := by
  intro xs
  induction xs with
  | nil =>
    intro rp out h hs
    simp only [qsort_loop] at h
    cases h
    exact List.pairwise_reverse.mpr hs
  | cons x xs ih =>
    intro rp out h hs
    simp only [qsort_loop] at h
    cases hsift : qsort_sift cmp x rp with
    | error e => rw [hsift] at h; cases h
    | ok rp2 =>
      rw [hsift] at h
      exact ih rp2 out h (qsort_sift_sorted cmp S hpos hneg htrans x rp rp2 hsift hs)

theorem qsort_loop_ok {α ε : Type} (cmp : α → α → Except ε Int) (R : α → α → Prop)
    (hsymm : ∀ {a b}, R a b → R b a) (hR : ∀ a b, R a b → ∃ c, cmp a b = .ok c) :
    ∀ (xs rp : List α), (rp ++ xs).Pairwise R → ∃ out, qsort_loop cmp rp xs = .ok out := by
  intro xs
  induction xs with
  | nil => intro rp _; exact ⟨rp.reverse, rfl⟩
  | cons x xs ih =>
    intro rp hp
    have hx : ∀ y ∈ rp, ∃ c, cmp y x = .ok c := by
      intro y hy
      have := (List.pairwise_append.mp hp).2.2 y hy x (List.mem_cons_self _ _)
      exact hR y x this
    obtain ⟨rp2, hrp2⟩ := qsort_sift_ok cmp x rp hx
    have hperm : (rp2 ++ xs).Perm (rp ++ x :: xs) := by
      have h2 : rp2.Perm (x :: rp) := qsort_sift_perm cmp x rp rp2 hrp2
      have h3 := h2.append_right xs
      exact h3.trans (List.perm_middle.symm)
    have hp2 : (rp2 ++ xs).Pairwise R := (hperm.pairwise_iff hsymm).mpr hp
    obtain ⟨out, hout⟩ := ih rp2 hp2
    exact ⟨out, by simp only [qsort_loop, hrp2]; exact hout⟩

theorem qsort_loop_error {α ε : Type} (cmp : α → α → Except ε Int) (e : ε) :
    ∀ (xs rp : List α), qsort_loop cmp rp xs = .error e →
      ∃ a ∈ rp ++ xs, ∃ b ∈ rp ++ xs, cmp a b = .error e := by
  intro xs
  induction xs with
  | nil => intro rp h; simp only [qsort_loop] at h; cases h
  | cons x xs ih =>
    intro rp h
    simp only [qsort_loop] at h
    cases hs : qsort_sift cmp x rp with
    | error e2 =>
      rw [hs] at h
      cases h
      obtain ⟨y, hy, hye⟩ := qsort_sift_error cmp x e rp hs
      exact ⟨y, List.mem_append_left _ hy, x,
        List.mem_append_right _ (List.mem_cons_self _ _), hye⟩
    | ok rp2 =>
      rw [hs] at h
      obtain ⟨a, ha, b, hb, hab⟩ := ih rp2 h
      have h2 : rp2.Perm (x :: rp) := qsort_sift_perm cmp x rp rp2 hs
      have hsub : ∀ z, z ∈ rp2 ++ xs → z ∈ rp ++ x :: xs := by
        intro z hz
        rcases List.mem_append.mp hz with hz1 | hz2
        · rcases List.mem_cons.mp (h2.subset hz1) with hzx | hzr
          · rw [hzx]; exact List.mem_append_right _ (List.mem_cons_self _ _)
          · exact List.mem_append_left _ hzr
        · exact List.mem_append_right _ (List.mem_cons_of_mem _ hz2)
      exact ⟨a, hsub a ha, b, hsub b hb, hab⟩

theorem foldl_snoc_eq {α : Type} (l acc : List α) :
    l.foldl (fun arr v => arr ++ [v]) acc = acc ++ l := by
  induction l generalizing acc with
  | nil => simp
  | cons x xs ih => simp [List.foldl, ih]

theorem sort_rel_tlist_result_eq (l : List Var) :
    ∀ n, sort_rel_tlist_result l n = l.take n := by
  intro n
  unfold sort_rel_tlist_result
  induction n with
  | zero => simp
  | succ n ih =>
    rw [List.range_succ, List.foldl_append, ih]
    simp only [List.foldl]
    rw [List.take_succ]
    cases h : l[n]? with
    | none => simp
    | some v => simp [lappend]

/-- The function `sort_rel_tlist` is the sort of its argument. -/
theorem sort_rel_tlist_eq (b : Bool) (tlist : List Var) :
    sort_rel_tlist b tlist = qsort tlist (cmp_tlist_vars b) := by
  unfold sort_rel_tlist
  simp only [foldl_snoc_eq, List.nil_append]
  cases h : qsort tlist (cmp_tlist_vars b) with
  | error t => rfl
  | ok out =>
    have hlen : out.length = tlist.length := by
      have := (qsort_loop_perm (cmp_tlist_vars b) tlist [] out h).length_eq
      simpa using this
    rw [← hlen]
    simp only [sort_rel_tlist_result_eq, List.take_length]

theorem sort_release_spec (tlist : List Var) :
    ∃ out, sort_rel_tlist false tlist = .ok out ∧ out.Perm tlist ∧
      out.Pairwise (fun a b => a.varattno ≤ b.varattno) := by
  rw [sort_rel_tlist_eq]
  have hok : ∃ out, qsort_loop (cmp_tlist_vars false) [] tlist = .ok out := by
    refine qsort_loop_ok (cmp_tlist_vars false) (fun _ _ => True) (fun _ => trivial) ?_ tlist [] ?_
    · intro a b _
      exact ⟨_, cmp_tlist_vars_release a b⟩
    · exact List.pairwise_of_forall (fun _ _ => trivial)
  obtain ⟨out, hout⟩ := hok
  refine ⟨out, hout, ?_, ?_⟩
  · simpa using qsort_loop_perm (cmp_tlist_vars false) tlist [] out hout
  · have := qsort_loop_sorted (cmp_tlist_vars false) (fun a b => b.varattno ≤ a.varattno)
      (fun a b c hc hp => by have := (cmp_tlist_vars_sign false a b c hc).mp hp; omega)
      (fun a b c hc hp => by
        have := (cmp_tlist_vars_sign false a b c hc)
        by_contra hcon
        exact hp (this.mpr (by omega)))
      (fun a b c h1 h2 => le_trans h2 h1) tlist [] out hout List.Pairwise.nil
    exact this

theorem sort_checked_strict (tlist out : List Var) (h : sort_rel_tlist true tlist = .ok out) :
    out.Perm tlist ∧ out.Pairwise (fun a b => a.varattno < b.varattno) := by
  rw [sort_rel_tlist_eq] at h
  refine ⟨by simpa using qsort_loop_perm (cmp_tlist_vars true) tlist [] out h, ?_⟩
  exact qsort_loop_sorted (cmp_tlist_vars true) (fun a b => b.varattno < a.varattno)
    (fun a b c hc hp => (cmp_tlist_vars_sign true a b c hc).mp hp)
    (fun a b c hc hp => by
      have h1 := cmp_tlist_vars_sign true a b c hc
      have h2 := cmp_tlist_vars_checked_ne a b c hc
      by_contra hcon
      exact hp (h1.mpr (by omega)))
    (fun a b c h1 h2 => lt_trans h2 h1) tlist [] out h List.Pairwise.nil

theorem sort_checked_ok (tlist : List Var) (hvar : ∀ v ∈ tlist, IsA_Var v = true)
    (hd : tlist.Pairwise (fun a b => a.varattno ≠ b.varattno)) :
    ∃ out, sort_rel_tlist true tlist = .ok out := by
  rw [sort_rel_tlist_eq]
  have hp : ([] ++ tlist).Pairwise (fun a b : Var =>
      (IsA_Var a = true ∧ IsA_Var b = true) ∧ a.varattno ≠ b.varattno) := by
    rw [List.nil_append]
    refine List.Pairwise.and ?_ hd
    exact List.pairwise_of_forall_mem_list (fun a ha b hb => ⟨hvar a ha, hvar b hb⟩)
  exact qsort_loop_ok (cmp_tlist_vars true) _
    (fun h => ⟨⟨h.1.2, h.1.1⟩, fun e => h.2 e.symm⟩)
    (fun a b h => cmp_tlist_vars_checked_ok a b h.1.1 h.1.2 h.2) tlist [] hp

theorem strict_sorted_unique (l1 l2 : List Var) (hp : l1.Perm l2)
    (h1 : l1.Pairwise (fun a b => a.varattno < b.varattno))
    (h2 : l2.Pairwise (fun a b => a.varattno < b.varattno)) : l1 = l2 := by
  haveI : IsAntisymm Var (fun a b => a.varattno < b.varattno) :=
    ⟨fun a b hab hba => absurd (lt_trans hab hba) (lt_irrefl _)⟩
  exact List.eq_of_perm_of_sorted hp h1 h2

theorem strict_of_sorted_distinct (l : List Var)
    (hs : l.Pairwise (fun a b => a.varattno ≤ b.varattno))
    (hd : l.Pairwise (fun a b => a.varattno ≠ b.varattno)) :
    l.Pairwise (fun a b => a.varattno < b.varattno) :=
  (hs.and hd).imp (fun h => lt_of_le_of_ne h.1 h.2)

theorem distinct_of_perm (l1 l2 : List Var) (hp : l1.Perm l2)
    (hd : l2.Pairwise (fun a b => a.varattno ≠ b.varattno)) :
    l1.Pairwise (fun a b => a.varattno ≠ b.varattno) :=
  (hp.pairwise_iff (fun h e => h e.symm)).mpr hd

theorem never_self_compares_true (tlist : List Var) : never_self_compares tlist = true := by
  unfold never_self_compares
  have hok : ∃ out, qsort tlist.enum (cmp_slots (cmp_tlist_vars false)) = .ok out := by
    refine qsort_loop_ok (cmp_slots (cmp_tlist_vars false)) (fun a b => a.1 ≠ b.1)
      (fun h e => h e.symm) ?_ tlist.enum [] ?_
    · intro a b hab
      have h := cmp_tlist_vars_release a.2 b.2
      exact ⟨_, by unfold cmp_slots; rw [if_neg hab]; exact h⟩
    · rw [List.nil_append]
      have := List.nodup_enum_map_fst tlist
      exact (List.pairwise_map.mp this)
  obtain ⟨out, hout⟩ := hok
  rw [hout]

/-! ## Lemmas on interval sets -/

theorem irange_list_intersect_covers (a b : List IndexRange) (i : Int) :
    irange_list_covers (irange_list_intersect a b) i ↔
      irange_list_covers a i ∧ irange_list_covers b i := by
  unfold irange_list_covers irange_list_intersect
  constructor
  · rintro ⟨r, hr, hlo, hhi⟩
    rw [List.mem_flatMap] at hr
    obtain ⟨ra, hra, hr2⟩ := hr
    rw [List.mem_filterMap] at hr2
    obtain ⟨rb, hrb, hr3⟩ := hr2
    simp only at hr3
    split_ifs at hr3 with hle
    cases hr3
    simp only at hlo hhi
    exact ⟨⟨ra, hra, by omega, by omega⟩, ⟨rb, hrb, by omega, by omega⟩⟩
  · rintro ⟨⟨ra, hra, ha1, ha2⟩, ⟨rb, hrb, hb1, hb2⟩⟩
    refine ⟨{ lower := max ra.lower rb.lower, upper := min ra.upper rb.upper }, ?_, ?_, ?_⟩
    · rw [List.mem_flatMap]
      refine ⟨ra, hra, ?_⟩
      rw [List.mem_filterMap]
      refine ⟨rb, hrb, ?_⟩
      have hle : max ra.lower rb.lower ≤ min ra.upper rb.upper := by omega
      simp only [hle, if_true]
    · simp only; omega
    · simp only; omega

theorem irange_list_intersect_nil_right (a : List IndexRange) :
    irange_list_intersect a [] = [] := by
  unfold irange_list_intersect
  simp

theorem irange_list_intersect_nil_left (b : List IndexRange) :
    irange_list_intersect [] b = [] := by
  unfold irange_list_intersect
  simp

theorem foldl_intersect_nil (ls : List (List IndexRange)) :
    ls.foldl irange_list_intersect [] = [] := by
  induction ls with
  | nil => rfl
  | cons l ls ih => simp only [List.foldl, irange_list_intersect_nil_left, ih]

theorem foldl_intersect_of_mem_nil (ls : List (List IndexRange)) (h : [] ∈ ls) :
    ∀ a, ls.foldl irange_list_intersect a = [] := by
  induction ls with
  | nil => cases h
  | cons l ls ih =>
    intro a
    simp only [List.foldl]
    rcases List.mem_cons.mp h with h1 | h2
    · rw [← h1, irange_list_intersect_nil_right, foldl_intersect_nil]
    · exact ih h2 _

theorem foldl_intersect_covers (ls : List (List IndexRange)) (i : Int) :
    ∀ a, irange_list_covers (ls.foldl irange_list_intersect a) i ↔
      irange_list_covers a i ∧ ∀ l ∈ ls, irange_list_covers l i := by
  induction ls with
  | nil => intro a; simp
  | cons l ls ih =>
    intro a
    simp only [List.foldl]
    rw [ih, irange_list_intersect_covers]
    simp only [List.mem_cons, forall_eq_or_imp]
    tauto

/-! ## Lemmas on the loop over the restrictions -/

theorem collect_loop_wrappers (ext : Externals) :
    ∀ (clauses : List RestrictInfo) (st : CollectState),
      (collect_loop ext st clauses).wrappers =
        st.wrappers ++ clause_wrappers ext st.context clauses := by
  intro clauses
  induction clauses with
  | nil => intro st; simp [collect_loop, clause_wrappers]
  | cons c rest ih =>
    intro st
    simp only [collect_loop, clause_wrappers]
    rw [ih]
    simp [collect_step, lappend]

theorem collect_loop_paramsel (ext : Externals) :
    ∀ (clauses : List RestrictInfo) (st : CollectState),
      (collect_loop ext st clauses).paramsel =
        st.paramsel * ((clause_wrappers ext st.context clauses).map (fun w => w.paramsel)).prod := by
  intro clauses
  induction clauses with
  | nil => intro st; simp [collect_loop, clause_wrappers]
  | cons c rest ih =>
    intro st
    simp only [collect_loop, clause_wrappers]
    rw [ih]
    simp [collect_step, mul_assoc]

theorem collect_loop_ranges (ext : Externals) :
    ∀ (clauses : List RestrictInfo) (st : CollectState),
      (collect_loop ext st clauses).ranges =
        ((clause_wrappers ext st.context clauses).map (fun w => w.rangeset)).foldl
          irange_list_intersect st.ranges := by
  intro clauses
  induction clauses with
  | nil => intro st; simp [collect_loop, clause_wrappers]
  | cons c rest ih =>
    intro st
    simp only [collect_loop, clause_wrappers]
    rw [ih]
    simp [collect_step]

theorem collect_loop_walked (ext : Externals) :
    ∀ (clauses : List RestrictInfo) (st : CollectState),
      walked_clauses (collect_loop ext st clauses).calls =
        walked_clauses st.calls ++ clauses.map (fun r => r.clause) := by
  intro clauses
  induction clauses with
  | nil => intro st; simp [collect_loop]
  | cons c rest ih =>
    intro st
    simp only [collect_loop]
    rw [ih]
    by_cases hl : rest.isEmpty = true <;>
      simp [collect_step, walked_clauses, List.filterMap_append, hl]

theorem collect_loop_appended (ext : Externals) :
    ∀ (clauses : List RestrictInfo) (st : CollectState),
      appended_children (collect_loop ext st clauses).calls = appended_children st.calls := by
  intro clauses
  induction clauses with
  | nil => intro st; simp [collect_loop]
  | cons c rest ih =>
    intro st
    simp only [collect_loop]
    rw [ih]
    by_cases hl : rest.isEmpty = true <;>
      simp [collect_step, appended_children, List.filterMap_append, hl]

theorem collect_loop_passed (ext : Externals) :
    ∀ (clauses : List RestrictInfo) (st : CollectState),
      passed_paramsel (collect_loop ext st clauses).calls = passed_paramsel st.calls := by
  intro clauses
  induction clauses with
  | nil => intro st; simp [collect_loop]
  | cons c rest ih =>
    intro st
    simp only [collect_loop]
    rw [ih]
    by_cases hl : rest.isEmpty = true <;>
      simp [collect_step, passed_paramsel, List.filterMap_append, hl]

theorem clause_wrappers_length (ext : Externals) :
    ∀ (clauses : List RestrictInfo) (context : WalkerContext),
      (clause_wrappers ext context clauses).length = clauses.length := by
  intro clauses
  induction clauses with
  | nil => intro _; rfl
  | cons c rest ih => intro context; simp [clause_wrappers, ih]

/-! ## Lemmas on the loop over the rangeset -/

theorem mem_for_range (lower upper i : Int) :
    i ∈ for_range lower upper ↔ lower ≤ i ∧ i ≤ upper := by
  unfold for_range
  rw [List.mem_map]
  constructor
  · rintro ⟨k, hk, rfl⟩
    rw [List.mem_range] at hk
    omega
  · rintro ⟨h1, h2⟩
    refine ⟨(i - lower).toNat, ?_, ?_⟩
    · rw [List.mem_range]; omega
    · omega

theorem for_range_sorted (lower upper : Int) :
    (for_range lower upper).Pairwise (fun a b => a < b) := by
  unfold for_range
  rw [List.pairwise_map]
  exact (List.pairwise_lt_range _).imp (fun h => by omega)

theorem for_range_length (lower upper : Int) :
    (for_range lower upper).length = (upper + 1 - lower).toNat := by
  unfold for_range
  simp

theorem mem_visited_indexes (ranges : List IndexRange) (i : Int) :
    i ∈ visited_indexes ranges ↔ irange_list_covers ranges i := by
  unfold visited_indexes irange_list_covers irange_lower irange_upper
  rw [List.mem_flatMap]
  constructor
  · rintro ⟨r, hr, hi⟩
    exact ⟨r, hr, (mem_for_range _ _ _).mp hi⟩
  · rintro ⟨r, hr, hi⟩
    exact ⟨r, hr, (mem_for_range _ _ _).mpr hi⟩

theorem visited_indexes_sorted (ranges : List IndexRange)
    (h : ranges.Pairwise (fun a b => a.upper < b.lower)) :
    (visited_indexes ranges).Pairwise (fun a b => a < b) := by
  unfold visited_indexes irange_lower irange_upper
  rw [List.pairwise_flatMap]
  refine ⟨fun r _ => for_range_sorted _ _, ?_⟩
  refine h.imp ?_
  intro a b hab x hx y hy
  have hx2 := (mem_for_range _ _ _).mp hx
  have hy2 := (mem_for_range _ _ _).mp hy
  omega

theorem mem_irange_list_indexes (ranges : List IndexRange) (i : Int) :
    i ∈ irange_list_indexes ranges ↔ irange_list_covers ranges i := by
  unfold irange_list_indexes irange_list_covers
  induction ranges with
  | nil => simp
  | cons r rs ih =>
    simp only [List.foldr, Finset.mem_union, Finset.mem_Icc, ih, List.mem_cons,
      exists_eq_or_imp]

theorem visited_indexes_length (ranges : List IndexRange)
    (h : ranges.Pairwise (fun a b => a.upper < b.lower)) :
    (visited_indexes ranges).length = irange_list_length ranges := by
  unfold irange_list_length
  induction ranges with
  | nil => rfl
  | cons r rs ih =>
    rw [List.pairwise_cons] at h
    have hdis : Disjoint (Finset.Icc r.lower r.upper) (irange_list_indexes rs) := by
      rw [Finset.disjoint_left]
      intro x hx hx2
      rw [Finset.mem_Icc] at hx
      obtain ⟨r2, hr2, h1, h2⟩ := (mem_irange_list_indexes rs x).mp hx2
      have := h.1 r2 hr2
      omega
    have hunfold : irange_list_indexes (r :: rs) =
        Finset.Icc r.lower r.upper ∪ irange_list_indexes rs := rfl
    rw [hunfold, Finset.card_union_of_disjoint hdis, ← ih h.2, Int.card_Icc]
    simp [visited_indexes, irange_lower, irange_upper, for_range_length]

theorem appended_children_append (a b : List Call) :
    appended_children (a ++ b) = appended_children a ++ appended_children b := by
  unfold appended_children
  exact List.filterMap_append _ _ _

theorem walked_clauses_append (a b : List Call) :
    walked_clauses (a ++ b) = walked_clauses a ++ walked_clauses b := by
  unfold walked_clauses
  exact List.filterMap_append _ _ _

theorem passed_paramsel_append (a b : List Call) :
    passed_paramsel (a ++ b) = passed_paramsel a ++ passed_paramsel b := by
  unfold passed_paramsel
  exact List.filterMap_append _ _ _

theorem append_child_relations_appended (rti : Nat) (dsm_arr : List Nat)
    (wrappers : List WrapperNode) (ranges : List IndexRange) :
    appended_children (append_child_relations rti dsm_arr wrappers ranges) =
      (visited_indexes ranges).map (fun i => (i, dsm_arr_at dsm_arr i)) := by
  unfold append_child_relations visited_indexes
  induction ranges with
  | nil => rfl
  | cons r rs ih =>
    simp only [List.flatMap_cons, appended_children_append, List.map_append, ih]
    congr 1
    unfold appended_children
    rw [List.filterMap_map]
    induction for_range (irange_lower r) (irange_upper r) with
    | nil => rfl
    | cons i is ih2 => simp [List.filterMap_cons, ih2]

theorem append_child_relations_walked (rti : Nat) (dsm_arr : List Nat)
    (wrappers : List WrapperNode) (ranges : List IndexRange) :
    walked_clauses (append_child_relations rti dsm_arr wrappers ranges) = [] := by
  unfold append_child_relations walked_clauses
  rw [List.filterMap_eq_nil_iff]
  intro c hc
  rw [List.mem_flatMap] at hc
  obtain ⟨r, _, hc2⟩ := hc
  rw [List.mem_map] at hc2
  obtain ⟨i, _, rfl⟩ := hc2
  rfl

theorem append_child_relations_passed (rti : Nat) (dsm_arr : List Nat)
    (wrappers : List WrapperNode) (ranges : List IndexRange) :
    passed_paramsel (append_child_relations rti dsm_arr wrappers ranges) = [] := by
  unfold append_child_relations passed_paramsel
  rw [List.filterMap_eq_nil_iff]
  intro c hc
  rw [List.mem_flatMap] at hc
  obtain ⟨r, _, hc2⟩ := hc
  rw [List.mem_map] at hc2
  obtain ⟨i, _, rfl⟩ := hc2
  rfl

/-! ## Lemmas on the array copy and the loop over the paths -/

theorem copy_relations_getElem (old_array new_array : List (Option Nat)) (j : Nat) :
    ∀ n, (copy_relations n old_array new_array)[j]? =
      if j < n ∧ j < new_array.length then some (old_array.getD j none) else new_array[j]? := by
  intro n
  unfold copy_relations
  induction n with
  | zero => simp
  | succ n ih =>
    rw [List.range_succ, List.foldl_append]
    simp only [List.foldl]
    rw [List.getElem?_set, ih]
    have hlen : (List.foldl (fun arr i => arr.set i (old_array.getD i none)) new_array
        (List.range n)).length = new_array.length := by
      clear ih
      induction n with
      | zero => simp
      | succ m ihm => rw [List.range_succ, List.foldl_append]; simpa using ihm
    rw [hlen]
    by_cases hj : n = j
    · subst hj
      by_cases hl : n < new_array.length
      · simp [hl]
      · have : new_array[n]? = none := by
          rw [List.getElem?_eq_none_iff]; omega
        simp [hl, this]
    · by_cases h1 : j < n
      · have h2 : j < n + 1 := by omega
        simp [hj, h1, h2]
      · have h2 : ¬ j < n + 1 := by omega
        simp [hj, h1, h2]

theorem copy_relations_grow (old_array : List (Option Nat)) (len : Nat) :
    copy_relations old_array.length old_array
      (List.replicate (old_array.length + len) none) =
      old_array ++ List.replicate len none := by
  apply List.ext_getElem?
  intro j
  rw [copy_relations_getElem, List.getElem?_append, List.getElem?_replicate,
    List.getElem?_replicate, List.length_replicate]
  by_cases h1 : j < old_array.length
  · have h2 : j < old_array.length + len := by omega
    simp [h1, h2, List.getElem?_eq_getElem h1]
  · by_cases h3 : j < old_array.length + len
    · have h4 : j - old_array.length < len := by omega
      simp [h1, h3, h4]
    · have h4 : ¬ j - old_array.length < len := by omega
      simp [h1, h3, h4]

theorem runtime_path_step_appended (ext : Externals) (flags : Flags) (rel : RelOptInfo)
    (paramsel : ℚ) (st : PathLoopState) (cur_path : Path) :
    appended_children (runtime_path_step ext flags rel paramsel st cur_path).calls =
      appended_children st.calls := by
  unfold runtime_path_step
  split_ifs <;> simp [appended_children, List.filterMap_append]

theorem runtime_path_step_walked (ext : Externals) (flags : Flags) (rel : RelOptInfo)
    (paramsel : ℚ) (st : PathLoopState) (cur_path : Path) :
    walked_clauses (runtime_path_step ext flags rel paramsel st cur_path).calls =
      walked_clauses st.calls := by
  unfold runtime_path_step
  split_ifs <;> simp [walked_clauses, List.filterMap_append]

theorem runtime_path_step_passed (ext : Externals) (flags : Flags) (rel : RelOptInfo)
    (paramsel : ℚ) (st : PathLoopState) (cur_path : Path)
    (h : ∀ x ∈ passed_paramsel st.calls, x = paramsel) :
    ∀ x ∈ passed_paramsel (runtime_path_step ext flags rel paramsel st cur_path).calls,
      x = paramsel := by
  unfold runtime_path_step
  split_ifs
  · exact h
  · intro x hx
    simp only [passed_paramsel, List.filterMap_append, List.mem_append] at hx
    rcases hx with hx | hx
    · exact h x hx
    · simp [List.filterMap_cons] at hx; exact hx
  · intro x hx
    simp only [passed_paramsel, List.filterMap_append, List.mem_append] at hx
    rcases hx with hx | hx
    · exact h x hx
    · simp [List.filterMap_cons] at hx; exact hx
  · exact h

theorem runtime_path_foldl_appended (ext : Externals) (flags : Flags) (rel : RelOptInfo)
    (paramsel : ℚ) : ∀ (paths : List Path) (st : PathLoopState),
      appended_children (paths.foldl (runtime_path_step ext flags rel paramsel) st).calls =
        appended_children st.calls := by
  intro paths
  induction paths with
  | nil => intro st; rfl
  | cons q qs ih => intro st; simp only [List.foldl]; rw [ih, runtime_path_step_appended]

theorem runtime_path_foldl_walked (ext : Externals) (flags : Flags) (rel : RelOptInfo)
    (paramsel : ℚ) : ∀ (paths : List Path) (st : PathLoopState),
      walked_clauses (paths.foldl (runtime_path_step ext flags rel paramsel) st).calls =
        walked_clauses st.calls := by
  intro paths
  induction paths with
  | nil => intro st; rfl
  | cons q qs ih => intro st; simp only [List.foldl]; rw [ih, runtime_path_step_walked]

theorem runtime_path_foldl_passed (ext : Externals) (flags : Flags) (rel : RelOptInfo)
    (paramsel : ℚ) : ∀ (paths : List Path) (st : PathLoopState),
      (∀ x ∈ passed_paramsel st.calls, x = paramsel) →
      ∀ x ∈ passed_paramsel (paths.foldl (runtime_path_step ext flags rel paramsel) st).calls,
        x = paramsel := by
  intro paths
  induction paths with
  | nil => intro st h; exact h
  | cons q qs ih =>
    intro st h
    simp only [List.foldl]
    exact ih _ (runtime_path_step_passed ext flags rel paramsel st q h)

theorem original_hook_calls_appended (ext : Externals) (rti : Nat) :
    appended_children (original_hook_calls ext rti) = [] := by
  unfold original_hook_calls
  cases ext.set_rel_pathlist_hook_next <;> rfl

theorem original_hook_calls_walked (ext : Externals) (rti : Nat) :
    walked_clauses (original_hook_calls ext rti) = [] := by
  unfold original_hook_calls
  cases ext.set_rel_pathlist_hook_next <;> rfl

theorem original_hook_calls_passed (ext : Externals) (rti : Nat) :
    passed_paramsel (original_hook_calls ext rti) = [] := by
  unfold original_hook_calls
  cases ext.set_rel_pathlist_hook_next <;> rfl

/-! ## Lemmas on `pathman_rel_pathlist_hook` -/

theorem hook_eq_prune (b : Bool) (ext : Externals) (s : PlannerState) (rti : Nat)
    (prel : PartRelationInfo) (h : reaches_pruning ext s rti prel) :
    pathman_rel_pathlist_hook b ext s rti =
      pathman_rel_pathlist_prune b ext (invoke_original_hook ext s rti) rti prel
        (original_hook_calls ext rti) := by
  obtain ⟨h1, h2, h3, h4⟩ := h
  unfold pathman_rel_pathlist_hook
  simp only [h1, h2, h3, h4]
  simp

theorem prune_pruning (b : Bool) (ext : Externals) (s : PlannerState) (rti : Nat)
    (prel : PartRelationInfo) (calls : List Call) :
    (pathman_rel_pathlist_prune b ext s rti prel calls).pruning =
      some { wrappers := clause_wrappers ext (initial_context prel) s.rel.baserestrictinfo,
             ranges := ((clause_wrappers ext (initial_context prel)
                          s.rel.baserestrictinfo).map (fun w => w.rangeset)).foldl
                        irange_list_intersect (full_rangeset prel),
             paramsel := ((clause_wrappers ext (initial_context prel)
                          s.rel.baserestrictinfo).map (fun w => w.paramsel)).prod } := by
  unfold pathman_rel_pathlist_prune
  simp only [collect_loop_wrappers, collect_loop_ranges, collect_loop_paramsel]
  cases sort_rel_tlist b s.rel.reltargetlist with
  | error t => simp [initial_context, full_rangeset]
  | ok tl =>
    simp only []
    split_ifs <;> simp [initial_context, full_rangeset]

theorem prune_root (b : Bool) (ext : Externals) (s : PlannerState) (rti : Nat)
    (prel : PartRelationInfo) (calls : List Call) (P : Pruning)
    (hP : (pathman_rel_pathlist_prune b ext s rti prel calls).pruning = some P) :
    (pathman_rel_pathlist_prune b ext s rti prel calls).state.root =
      expand_for_ranges s.root P.ranges := by
  rw [prune_pruning] at hP
  cases hP
  unfold pathman_rel_pathlist_prune
  simp only [collect_loop_ranges]
  cases sort_rel_tlist b s.rel.reltargetlist with
  | error t => simp [initial_context, full_rangeset]
  | ok tl =>
    simp only []
    split_ifs <;> simp_all [initial_context, full_rangeset]

theorem prune_trap (b : Bool) (ext : Externals) (s : PlannerState) (rti : Nat)
    (prel : PartRelationInfo) (calls : List Call) :
    (pathman_rel_pathlist_prune b ext s rti prel calls).trap =
      match sort_rel_tlist b s.rel.reltargetlist with
      | .error t => some t
      | .ok _ => none := by
  unfold pathman_rel_pathlist_prune
  cases sort_rel_tlist b s.rel.reltargetlist with
  | error t => simp
  | ok tl =>
    simp only []
    split_ifs <;> simp

theorem prune_appended (b : Bool) (ext : Externals) (s : PlannerState) (rti : Nat)
    (prel : PartRelationInfo) (calls : List Call) (P : Pruning)
    (hP : (pathman_rel_pathlist_prune b ext s rti prel calls).pruning = some P) :
    appended_children (pathman_rel_pathlist_prune b ext s rti prel calls).calls =
      match sort_rel_tlist b s.rel.reltargetlist with
      | .error _ => appended_children calls
      | .ok _ => appended_children calls ++
          (visited_indexes P.ranges).map (fun i => (i, dsm_arr_at prel.children i)) := by
  rw [prune_pruning] at hP
  cases hP
  unfold pathman_rel_pathlist_prune
  cases sort_rel_tlist b s.rel.reltargetlist with
  | error t => simp [collect_loop_appended]
  | ok tl =>
    simp only []
    split_ifs
    · simp only [appended_children_append, collect_loop_appended,
        append_child_relations_appended, collect_loop_ranges, initial_context, full_rangeset]
      simp [appended_children]
    · simp only [appended_children_append, collect_loop_appended,
        append_child_relations_appended, collect_loop_ranges, initial_context, full_rangeset,
        runtime_path_loop, runtime_path_foldl_appended]
      simp [appended_children]

theorem prune_walked (b : Bool) (ext : Externals) (s : PlannerState) (rti : Nat)
    (prel : PartRelationInfo) (calls : List Call) :
    walked_clauses (pathman_rel_pathlist_prune b ext s rti prel calls).calls =
      walked_clauses calls ++ s.rel.baserestrictinfo.map (fun r => r.clause) := by
  unfold pathman_rel_pathlist_prune
  cases sort_rel_tlist b s.rel.reltargetlist with
  | error t => simp [collect_loop_walked]
  | ok tl =>
    simp only []
    split_ifs
    · simp only [walked_clauses_append, collect_loop_walked, append_child_relations_walked]
      simp [walked_clauses]
    · simp only [walked_clauses_append, collect_loop_walked, append_child_relations_walked,
        runtime_path_loop, runtime_path_foldl_walked]
      simp [walked_clauses]

theorem prune_passed (b : Bool) (ext : Externals) (s : PlannerState) (rti : Nat)
    (prel : PartRelationInfo) (calls : List Call) (P : Pruning)
    (hP : (pathman_rel_pathlist_prune b ext s rti prel calls).pruning = some P)
    (hc : passed_paramsel calls = []) :
    ∀ x ∈ passed_paramsel (pathman_rel_pathlist_prune b ext s rti prel calls).calls,
      x = P.paramsel := by
  rw [prune_pruning] at hP
  cases hP
  unfold pathman_rel_pathlist_prune
  cases sort_rel_tlist b s.rel.reltargetlist with
  | error t => simp [collect_loop_passed, hc]
  | ok tl =>
    simp only []
    split_ifs
    · simp only [passed_paramsel_append, collect_loop_passed, append_child_relations_passed, hc]
      simp [passed_paramsel]
    · intro x hx
      simp only [passed_paramsel_append, collect_loop_passed, append_child_relations_passed, hc,
        List.nil_append, List.mem_append] at hx
      rcases hx with hx | hx
      · simp [passed_paramsel] at hx
      · unfold runtime_path_loop at hx
        have := runtime_path_foldl_passed ext _ _ _ _ _ (by simp [passed_paramsel]) x hx
        rw [this, collect_loop_paramsel]
        simp [initial_context]

theorem hook_cases (b : Bool) (ext : Externals) (s : PlannerState) (rti : Nat) :
    (∃ prel, reaches_pruning ext s rti prel) ∨
    ((pathman_rel_pathlist_hook b ext s rti).state = invoke_original_hook ext s rti ∧
     (pathman_rel_pathlist_hook b ext s rti).calls = original_hook_calls ext rti ∧
     (pathman_rel_pathlist_hook b ext s rti).trap = none ∧
     (pathman_rel_pathlist_hook b ext s rti).pruning = none) := by
  by_cases h1 : (invoke_original_hook ext s rti).flags.pg_pathman_enable = true
  swap
  · right
    unfold pathman_rel_pathlist_hook
    simp [h1]
  by_cases h2 : (invoke_original_hook ext s rti).root.commandType = CmdType.CMD_SELECT
  swap
  · right
    unfold pathman_rel_pathlist_hook
    simp [h1, h2]
  by_cases h3 : (invoke_original_hook ext s rti).flags.inheritance_disabled = true
  swap
  · right
    unfold pathman_rel_pathlist_hook
    simp [h1, h2, h3]
  cases h4 : (ext.get_pathman_relation_info (invoke_original_hook ext s rti).rte.relid).1 with
  | none =>
    right
    unfold pathman_rel_pathlist_hook
    simp [h1, h2, h3, h4]
  | some prel =>
    cases h5 : (ext.get_pathman_relation_info (invoke_original_hook ext s rti).rte.relid).2 with
    | false =>
      right
      unfold pathman_rel_pathlist_hook
      simp [h1, h2, h3, h4, h5]
    | true =>
      left
      exact ⟨prel, h1, h2, h3, Prod.ext h4 h5⟩

theorem prod_mem_unit_interval (l : List ℚ) (h : ∀ x ∈ l, 0 ≤ x ∧ x ≤ 1) :
    0 ≤ l.prod ∧ l.prod ≤ 1 := by
  induction l with
  | nil => simp
  | cons x xs ih =>
    have hx := h x (List.mem_cons_self _ _)
    have hxs := ih (fun y hy => h y (List.mem_cons_of_mem _ hy))
    rw [List.prod_cons]
    refine ⟨mul_nonneg hx.1 hxs.1, ?_⟩
    calc x * xs.prod ≤ 1 * 1 := mul_le_mul hx.2 hxs.2 hxs.1 zero_le_one
      _ = 1 := by norm_num

theorem clause_wrappers_getElem (ext : Externals) :
    ∀ (clauses : List RestrictInfo) (context : WalkerContext) (i : Nat) (rinfo : RestrictInfo),
      clauses[i]? = some rinfo →
      ∃ ctx, (clause_wrappers ext context clauses)[i]? =
        some (if i + 1 = clauses.length then
                (ext.finish_least_greatest (ext.walk_expr_tree rinfo.clause ctx).1
                  (ext.walk_expr_tree rinfo.clause ctx).2).1
              else (ext.walk_expr_tree rinfo.clause ctx).1) := by
  intro clauses
  induction clauses with
  | nil => intro context i rinfo h; simp at h
  | cons c rest ih =>
    intro context i rinfo h
    cases i with
    | zero =>
      simp only [List.getElem?_cons_zero, Option.some.injEq] at h
      subst h
      refine ⟨context, ?_⟩
      simp only [clause_wrappers, List.getElem?_cons_zero, List.length_cons]
      cases rest with
      | nil => simp
      | cons d ds => simp
    | succ j =>
      simp only [List.getElem?_cons_succ] at h
      simp only [clause_wrappers, List.getElem?_cons_succ, List.length_cons]
      obtain ⟨ctx, hctx⟩ := ih _ j rinfo h
      refine ⟨ctx, ?_⟩
      rw [hctx]
      by_cases hl : j + 1 = rest.length
      · simp [hl]
      · have : ¬ (j + 1 + 1 = rest.length + 1) := by omega
        simp [hl, this]

/-! ## Lemmas on `pathman_join_pathlist_hook` -/

theorem join_sel_foldl (ext : Externals) (inner_prel : PartRelationInfo) :
    ∀ (clauses : List Nat) (st : JoinSelState),
      (clauses.foldl (join_paramsel_step ext inner_prel) st).wrappers =
        st.wrappers ++ clauses.map
          (fun c => (ext.walk_expr_tree c (initial_context inner_prel)).1) ∧
      (clauses.foldl (join_paramsel_step ext inner_prel) st).paramsel =
        st.paramsel * ((clauses.map
          (fun c => (ext.walk_expr_tree c (initial_context inner_prel)).1)).map
            (fun w => w.paramsel)).prod ∧
      passed_paramsel (clauses.foldl (join_paramsel_step ext inner_prel) st).calls =
        passed_paramsel st.calls ∧
      walked_clauses (clauses.foldl (join_paramsel_step ext inner_prel) st).calls =
        walked_clauses st.calls ++ clauses := by
  intro clauses
  induction clauses with
  | nil => intro st; simp
  | cons c cs ih =>
    intro st
    simp only [List.foldl]
    obtain ⟨h1, h2, h3, h4⟩ := ih (join_paramsel_step ext inner_prel st c)
    rw [h1, h2, h3, h4]
    simp [join_paramsel_step, initial_context, mul_assoc, passed_paramsel, walked_clauses,
      List.filterMap_append]

theorem join_path_foldl (ext : Externals) (outerrel innerrel : RelOptInfo) (jointype : JoinType)
    (extra : JoinPathExtraData) (paramsel : ℚ) :
    ∀ (paths : List Path) (calls : List Call),
      (∀ x ∈ passed_paramsel calls, x = paramsel) →
      (∀ x ∈ passed_paramsel
          (paths.foldl (join_path_step ext outerrel innerrel jointype extra paramsel) calls),
        x = paramsel) ∧
      walked_clauses
          (paths.foldl (join_path_step ext outerrel innerrel jointype extra paramsel) calls) =
        walked_clauses calls := by
  intro paths
  induction paths with
  | nil => intro calls h; exact ⟨h, rfl⟩
  | cons q qs ih =>
    intro calls h
    simp only [List.foldl]
    have hstep : (∀ x ∈ passed_paramsel
        (join_path_step ext outerrel innerrel jointype extra paramsel calls q), x = paramsel) ∧
        walked_clauses (join_path_step ext outerrel innerrel jointype extra paramsel calls q) =
          walked_clauses calls := by
      unfold join_path_step
      split_ifs
      · exact ⟨h, rfl⟩
      · constructor
        · intro x hx
          simp only [passed_paramsel, List.filterMap_append, List.mem_append] at hx
          rcases hx with hx | hx
          · exact h x hx
          · simp [List.filterMap_cons] at hx; exact hx
        · simp [walked_clauses, List.filterMap_append]
    obtain ⟨h1, h2⟩ := ih _ hstep.1
    exact ⟨h1, by rw [h2, hstep.2]⟩

/-! ## The claims -/

/-- C1: for every 32-bit unsigned hash value `h` and every partition count
`N > 0`, `hash_to_part_index(h, N)` returns `h mod N`, the result lies in
`[0, N)`, and a second call with the same `(h, N)` returns the same index. -/
theorem hash_to_part_index_mod (h N : Nat) (hh : h < UINT32_RANGE) (hN0 : 0 < N)
    (hN : N < UINT32_RANGE) :
    hash_to_part_index h N = some (h % N) ∧ h % N < N ∧
      ∀ h2 N2, h2 = h → N2 = N → hash_to_part_index h2 N2 = hash_to_part_index h N := by
  refine ⟨?_, Nat.mod_lt _ hN0, ?_⟩
  · unfold hash_to_part_index
    simp only [Nat.mod_eq_of_lt hh, Nat.mod_eq_of_lt hN]
    rw [if_neg (by omega)]
  · intro h2 N2 e1 e2
    rw [e1, e2]

/-- C1 at `h = 4000000000`, `N = 7`. -/
theorem hash_to_part_index_mod_witness :
    hash_to_part_index 4000000000 7 = some (4000000000 % 7) ∧ 4000000000 % 7 < 7 ∧
      ∀ h2 N2, h2 = 4000000000 → N2 = 7 →
        hash_to_part_index h2 N2 = hash_to_part_index 4000000000 7 :=
  hash_to_part_index_mod 4000000000 7 (by unfold UINT32_RANGE; norm_num) (by norm_num)
    (by unfold UINT32_RANGE; norm_num)

/-- C6: when, after the chained `set_rel_pathlist_hook_next` call,
`pg_pathman_enable` is false, or the command type is not SELECT, or
`inheritance_disabled` is false, or the lookup for `rte->relid` gives no
`prel` or `found` false, the hook changes nothing: the planner state is the one
the chained hook left (in particular `rte->inh`, `rel->pathlist`,
`rel->reltargetlist`, `simple_rel_array`, `simple_rte_array` and
`simple_rel_array_size`), it makes no call of its own and appends no child. -/
theorem rel_hook_noop_outside_supported_case (b : Bool) (ext : Externals) (s : PlannerState)
    (rti : Nat)
    (h : (invoke_original_hook ext s rti).flags.pg_pathman_enable = false ∨
         (invoke_original_hook ext s rti).root.commandType ≠ CmdType.CMD_SELECT ∨
         (invoke_original_hook ext s rti).flags.inheritance_disabled = false ∨
         (ext.get_pathman_relation_info (invoke_original_hook ext s rti).rte.relid).1 = none ∨
         (ext.get_pathman_relation_info (invoke_original_hook ext s rti).rte.relid).2 = false) :
    (pathman_rel_pathlist_hook b ext s rti).state = invoke_original_hook ext s rti ∧
    (pathman_rel_pathlist_hook b ext s rti).state.rte.inh =
      (invoke_original_hook ext s rti).rte.inh ∧
    (pathman_rel_pathlist_hook b ext s rti).state.rel.pathlist =
      (invoke_original_hook ext s rti).rel.pathlist ∧
    (pathman_rel_pathlist_hook b ext s rti).state.rel.reltargetlist =
      (invoke_original_hook ext s rti).rel.reltargetlist ∧
    (pathman_rel_pathlist_hook b ext s rti).state.root.simple_rel_array =
      (invoke_original_hook ext s rti).root.simple_rel_array ∧
    (pathman_rel_pathlist_hook b ext s rti).state.root.simple_rte_array =
      (invoke_original_hook ext s rti).root.simple_rte_array ∧
    (pathman_rel_pathlist_hook b ext s rti).state.root.simple_rel_array_size =
      (invoke_original_hook ext s rti).root.simple_rel_array_size ∧
    (pathman_rel_pathlist_hook b ext s rti).calls = original_hook_calls ext rti ∧
    appended_children (pathman_rel_pathlist_hook b ext s rti).calls = [] ∧
    (pathman_rel_pathlist_hook b ext s rti).trap = none := by
  have key : (pathman_rel_pathlist_hook b ext s rti).state = invoke_original_hook ext s rti ∧
      (pathman_rel_pathlist_hook b ext s rti).calls = original_hook_calls ext rti ∧
      (pathman_rel_pathlist_hook b ext s rti).trap = none ∧
      (pathman_rel_pathlist_hook b ext s rti).pruning = none := by
    rcases hook_cases b ext s rti with ⟨prel, h1, h2, h3, h4⟩ | hno
    · exfalso
      rcases h with h | h | h | h | h
      · rw [h1] at h; cases h
      · exact h h2
      · rw [h3] at h; cases h
      · rw [h4] at h; cases h
      · rw [h4] at h; cases h
    · exact hno
  obtain ⟨k1, k2, k3, _⟩ := key
  refine ⟨k1, ?_, ?_, ?_, ?_, ?_, ?_, k2, ?_, k3⟩
  · rw [k1]
  · rw [k1]
  · rw [k1]
  · rw [k1]
  · rw [k1]
  · rw [k1]
  · rw [k2, original_hook_calls_appended]

/-- C7 (what the code does at the failing input): with `pg_pathman_enable` and
`pg_pathman_enable_runtimeappend` on, `pg_pathman_enable_runtime_merge_append`
off and `newval = false`, `pg_pathman_enable_assign_hook` takes the early
return and leaves `pg_pathman_enable_runtimeappend` on, different from
`newval`. -/
theorem assign_hook_early_return_keeps_runtimeappend :
    (pg_pathman_enable_assign_hook false
      { pg_pathman_enable := true, pg_pathman_enable_runtimeappend := true,
        pg_pathman_enable_runtime_merge_append := false,
        inheritance_disabled := false }).early_return = true ∧
    (pg_pathman_enable_assign_hook false
      { pg_pathman_enable := true, pg_pathman_enable_runtimeappend := true,
        pg_pathman_enable_runtime_merge_append := false,
        inheritance_disabled := false }).flags.pg_pathman_enable_runtimeappend = true ∧
    (pg_pathman_enable_assign_hook false
      { pg_pathman_enable := true, pg_pathman_enable_runtimeappend := true,
        pg_pathman_enable_runtime_merge_append := false,
        inheritance_disabled := false }).flags.pg_pathman_enable_runtimeappend ≠ false := by
  decide

/-- C8: `sort_rel_tlist` returns, for every list of Vars, a list of the same
length that is a permutation of its argument with varattno in non-decreasing
order; when the varattno values are pairwise distinct the result is strictly
ascending and is the only strictly ascending ordering of the list.  This is
the build without assertion checking; with assertion checking the same list
is returned whenever both assertions of the comparator hold. -/
theorem sort_rel_tlist_sorts_by_varattno (tlist : List Var) :
    ∃ out, sort_rel_tlist false tlist = .ok out ∧
      out.length = tlist.length ∧ out.Perm tlist ∧
      out.Sorted (fun a b => a.varattno ≤ b.varattno) ∧
      (tlist.Pairwise (fun a b => a.varattno ≠ b.varattno) →
        out.Sorted (fun a b => a.varattno < b.varattno) ∧
        ∀ l : List Var, l.Perm tlist → l.Sorted (fun a b => a.varattno < b.varattno) →
          l = out) ∧
      (tlist_asserts_hold tlist → sort_rel_tlist true tlist = .ok out) := by
  obtain ⟨out, hout, hperm, hsorted⟩ := sort_release_spec tlist
  have hstrict : tlist.Pairwise (fun a b => a.varattno ≠ b.varattno) →
      out.Pairwise (fun a b => a.varattno < b.varattno) := fun hd =>
    strict_of_sorted_distinct out hsorted (distinct_of_perm out tlist hperm hd)
  refine ⟨out, hout, hperm.length_eq, hperm, hsorted, ?_, ?_⟩
  · intro hd
    refine ⟨hstrict hd, ?_⟩
    intro l hl hls
    exact strict_sorted_unique l out (hl.trans hperm.symm) hls (hstrict hd)
  · intro ha
    obtain ⟨out2, hout2⟩ := sort_checked_ok tlist ha.1 ha.2
    obtain ⟨hp2, hs2⟩ := sort_checked_strict tlist out2 hout2
    rw [hout2, strict_sorted_unique out2 out (hp2.trans hperm.symm) hs2 (hstrict ha.2)]

/-- C10: for Vars `v1`, `v2`, `cmp_tlist_vars` returns 1 iff
`v1.varattno > v2.varattno`, -1 iff `v1.varattno < v2.varattno`, and reaches
the branch guarded by `Assert(v1->varattno != v2->varattno)` (returning 0, or
aborting on that assertion when assertions are checked) iff the two varattno
are equal, where the asserted condition is false; and for a target list of
Vars that assertion does not fail during `sort_rel_tlist` exactly when the
varattno are pairwise distinct and the sort never compares a slot with
itself. -/
theorem cmp_tlist_vars_assertion (v1 v2 : Var) (tlist : List Var)
    (h1 : IsA_Var v1 = true) (h2 : IsA_Var v2 = true)
    (ht : ∀ v ∈ tlist, IsA_Var v = true) :
    (∀ b, cmp_tlist_vars b v1 v2 = .ok 1 ↔ v1.varattno > v2.varattno) ∧
    (∀ b, cmp_tlist_vars b v1 v2 = .ok (-1) ↔ v1.varattno < v2.varattno) ∧
    (cmp_tlist_vars false v1 v2 = .ok 0 ↔ v1.varattno = v2.varattno) ∧
    (cmp_tlist_vars true v1 v2 = .error (Trap.assert_failed ASSERT_ATTNO_DIFFER) ↔
      v1.varattno = v2.varattno) ∧
    (v1.varattno = v2.varattno → (v1.varattno != v2.varattno) = false) ∧
    (sort_rel_tlist true tlist ≠ .error (Trap.assert_failed ASSERT_ATTNO_DIFFER) ↔
      tlist.Pairwise (fun a b => a.varattno ≠ b.varattno) ∧
        never_self_compares tlist = true) := by
  have hrel := cmp_tlist_vars_release v1 v2
  have hchk := cmp_tlist_vars_checked v1 v2
  simp only [h1, h2, Bool.and_self, Bool.true_eq_false, if_false] at hchk
  refine ⟨?_, ?_, ?_, ?_, ?_, ?_⟩
  · intro b
    cases b
    · rw [hrel]; split_ifs <;> simp <;> omega
    · rw [hchk]; split_ifs <;> simp <;> omega
  · intro b
    cases b
    · rw [hrel]; split_ifs <;> simp <;> omega
    · rw [hchk]; split_ifs <;> simp <;> omega
  · rw [hrel]; split_ifs <;> simp <;> omega
  · rw [hchk]; split_ifs <;> simp <;> omega
  · intro he; simp [he]
  · constructor
    · intro hne
      refine ⟨?_, never_self_compares_true tlist⟩
      cases hs : sort_rel_tlist true tlist with
      | ok out =>
        obtain ⟨hp, hst⟩ := sort_checked_strict tlist out hs
        have hd : out.Pairwise (fun a b => a.varattno ≠ b.varattno) :=
          hst.imp (fun h => ne_of_lt h)
        exact distinct_of_perm tlist out hp.symm hd
      | error t =>
        exfalso
        apply hne
        rw [hs]
        have hs2 := hs
        rw [sort_rel_tlist_eq] at hs2
        obtain ⟨a, ha, c, hc, hac⟩ := qsort_loop_error (cmp_tlist_vars true) t tlist [] hs2
        rw [List.nil_append] at ha hc
        rw [(cmp_tlist_vars_checked_error a c t (ht a ha) (ht c hc) hac).1]
    · rintro ⟨hd, _⟩ habs
      obtain ⟨out, hout⟩ := sort_checked_ok tlist ht hd
      rw [hout] at habs
      cases habs

/-- C6 at the sample state with the extension switched off. -/
theorem rel_hook_noop_outside_supported_case_witness :
    (pathman_rel_pathlist_hook true sample_externals
      { sample_state [2, 3] with
        flags := { (sample_state [2, 3]).flags with pg_pathman_enable := false } } 1).state =
      invoke_original_hook sample_externals
        { sample_state [2, 3] with
          flags := { (sample_state [2, 3]).flags with pg_pathman_enable := false } } 1 ∧
    appended_children (pathman_rel_pathlist_hook true sample_externals
      { sample_state [2, 3] with
        flags := { (sample_state [2, 3]).flags with pg_pathman_enable := false } } 1).calls = [] :=
  have h := rel_hook_noop_outside_supported_case true sample_externals
    { sample_state [2, 3] with
      flags := { (sample_state [2, 3]).flags with pg_pathman_enable := false } } 1
    (Or.inl rfl)
  ⟨h.1, h.2.2.2.2.2.2.2.2.1⟩

/-- C10 at the Vars for attributes 2 and 1 and the target list made of them. -/
theorem cmp_tlist_vars_assertion_witness :
    cmp_tlist_vars true (sample_var 2) (sample_var 1) = .ok 1 ∧
    (sort_rel_tlist true [sample_var 2, sample_var 1] ≠
        .error (Trap.assert_failed ASSERT_ATTNO_DIFFER) ↔
      [sample_var 2, sample_var 1].Pairwise (fun a b => a.varattno ≠ b.varattno) ∧
        never_self_compares [sample_var 2, sample_var 1] = true) :=
  have h := cmp_tlist_vars_assertion (sample_var 2) (sample_var 1) [sample_var 2, sample_var 1]
    rfl rfl (by decide)
  ⟨(h.1 true).mpr (by decide), h.2.2.2.2.2⟩

/-- C3: when the hook reaches its pruning block, the final rangeset is the
full range `[0, children_count - 1]` intersected successively, in list order,
with the rangeset of the wrapper of every clause of `rel->baserestrictinfo`;
there is one wrapper per clause, each obtained from one `walk_expr_tree` call
on that clause (the last one handed to `finish_least_greatest` before its
rangeset is read, as in the source; when that function leaves the rangeset
as it is, every intersected set is the rangeset `walk_expr_tree` returned),
the clauses are walked once each in list order, and for the empty clause list
the result is the full range. -/
theorem rel_hook_rangeset_is_intersection (b : Bool) (ext : Externals) (s : PlannerState)
    (rti : Nat) (prel : PartRelationInfo) (h : reaches_pruning ext s rti prel) :
    ∃ P, (pathman_rel_pathlist_hook b ext s rti).pruning = some P ∧
      P.ranges = (P.wrappers.map (fun w => w.rangeset)).foldl irange_list_intersect
        [make_irange 0 (prel.children_count - 1) false] ∧
      P.wrappers.length = (invoke_original_hook ext s rti).rel.baserestrictinfo.length ∧
      (∀ (i : Nat) (rinfo : RestrictInfo),
        (invoke_original_hook ext s rti).rel.baserestrictinfo[i]? = some rinfo →
        ∃ ctx, P.wrappers[i]? =
          some (if i + 1 = (invoke_original_hook ext s rti).rel.baserestrictinfo.length then
                  (ext.finish_least_greatest (ext.walk_expr_tree rinfo.clause ctx).1
                    (ext.walk_expr_tree rinfo.clause ctx).2).1
                else (ext.walk_expr_tree rinfo.clause ctx).1)) ∧
      ((∀ w ctx, (ext.finish_least_greatest w ctx).1.rangeset = w.rangeset) →
        ∀ (i : Nat) (rinfo : RestrictInfo),
          (invoke_original_hook ext s rti).rel.baserestrictinfo[i]? = some rinfo →
          ∃ ctx, (P.wrappers[i]?).map (fun w => w.rangeset) =
            some (ext.walk_expr_tree rinfo.clause ctx).1.rangeset) ∧
      walked_clauses (pathman_rel_pathlist_hook b ext s rti).calls =
        (invoke_original_hook ext s rti).rel.baserestrictinfo.map (fun r => r.clause) ∧
      ((invoke_original_hook ext s rti).rel.baserestrictinfo = [] →
        P.ranges = [make_irange 0 (prel.children_count - 1) false]) := by
  rw [hook_eq_prune b ext s rti prel h]
  refine ⟨_, prune_pruning b ext _ rti prel _, rfl, ?_, ?_, ?_, ?_, ?_⟩
  · exact clause_wrappers_length ext _ _
  · intro i rinfo hi
    exact clause_wrappers_getElem ext _ _ i rinfo hi
  · intro hfin i rinfo hi
    obtain ⟨ctx, hctx⟩ := clause_wrappers_getElem ext _ (initial_context prel) i rinfo hi
    refine ⟨ctx, ?_⟩
    simp only [hctx, Option.map_some']
    split_ifs
    · rw [hfin]
    · rfl
  · rw [prune_walked, original_hook_calls_walked, List.nil_append]
  · intro he
    simp only [he, clause_wrappers, List.map_nil, List.foldl_nil]
    rfl

/-- C3 at the sample state with the clauses 2 and 3. -/
theorem rel_hook_rangeset_is_intersection_witness :
    ∃ P, (pathman_rel_pathlist_hook true sample_externals (sample_state [2, 3]) 1).pruning =
        some P ∧
      P.ranges = (P.wrappers.map (fun w => w.rangeset)).foldl irange_list_intersect
        [make_irange 0 (sample_prel.children_count - 1) false] ∧
      P.wrappers.length = 2 :=
  have h := rel_hook_rangeset_is_intersection true sample_externals (sample_state [2, 3]) 1
    sample_prel ⟨rfl, rfl, rfl, rfl⟩
  h.elim fun P hP => ⟨P, hP.1, hP.2.1, hP.2.2.1⟩

/-- C2: for a partitioned relation with `children_count > 0` and a partition
index `p` in `[0, children_count - 1]`, if `p` is a member of the rangeset of
the wrapper of every restriction clause, then `p` is a member of the final
rangeset and `append_child_relation` is called for `p` (with `dsm_arr[p]`); the
hook does not abort when assertions are unchecked or the target list passes
them. -/
theorem rel_hook_pruning_sound (b : Bool) (ext : Externals) (s : PlannerState) (rti : Nat)
    (prel : PartRelationInfo) (p : Int) (h : reaches_pruning ext s rti prel)
    (_hN : 0 < prel.children_count) (hp : 0 ≤ p ∧ p ≤ prel.children_count - 1)
    (hw : ∀ w ∈ clause_wrappers ext (initial_context prel)
            (invoke_original_hook ext s rti).rel.baserestrictinfo,
          irange_list_covers w.rangeset p)
    (ha : b = true → tlist_asserts_hold (invoke_original_hook ext s rti).rel.reltargetlist) :
    ∃ P, (pathman_rel_pathlist_hook b ext s rti).pruning = some P ∧
      P.wrappers = clause_wrappers ext (initial_context prel)
        (invoke_original_hook ext s rti).rel.baserestrictinfo ∧
      irange_list_covers P.ranges p ∧
      (pathman_rel_pathlist_hook b ext s rti).trap = none ∧
      (p, dsm_arr_at prel.children p) ∈
        appended_children (pathman_rel_pathlist_hook b ext s rti).calls := by
  have hsort : ∃ tl, sort_rel_tlist b (invoke_original_hook ext s rti).rel.reltargetlist =
      .ok tl := by
    cases b with
    | false =>
      obtain ⟨out, hout, _⟩ := sort_release_spec (invoke_original_hook ext s rti).rel.reltargetlist
      exact ⟨out, hout⟩
    | true => exact sort_checked_ok _ (ha rfl).1 (ha rfl).2
  obtain ⟨tl, htl⟩ := hsort
  rw [hook_eq_prune b ext s rti prel h]
  have hP := prune_pruning b ext (invoke_original_hook ext s rti) rti prel
    (original_hook_calls ext rti)
  have hcov : irange_list_covers
      (((clause_wrappers ext (initial_context prel)
          (invoke_original_hook ext s rti).rel.baserestrictinfo).map
            (fun w => w.rangeset)).foldl irange_list_intersect (full_rangeset prel)) p := by
    rw [foldl_intersect_covers]
    refine ⟨⟨make_irange 0 (prel.children_count - 1) false, List.mem_singleton.mpr rfl,
      hp.1, hp.2⟩, ?_⟩
    intro l hl
    rw [List.mem_map] at hl
    obtain ⟨w, hw1, rfl⟩ := hl
    exact hw w hw1
  refine ⟨_, hP, rfl, hcov, ?_, ?_⟩
  · rw [prune_trap, htl]
  · rw [prune_appended b ext _ rti prel _ _ hP, htl]
    simp only [original_hook_calls_appended, List.nil_append, List.mem_map]
    exact ⟨p, (mem_visited_indexes _ p).mpr hcov, rfl⟩

/-- C2 at the sample state with the clauses 2 and 3 and partition 1. -/
theorem rel_hook_pruning_sound_witness :
    ∃ P, (pathman_rel_pathlist_hook true sample_externals (sample_state [2, 3]) 1).pruning =
        some P ∧
      irange_list_covers P.ranges 1 ∧
      (1, dsm_arr_at sample_prel.children 1) ∈
        appended_children
          (pathman_rel_pathlist_hook true sample_externals (sample_state [2, 3]) 1).calls :=
  have h := rel_hook_pruning_sound true sample_externals (sample_state [2, 3]) 1 sample_prel 1
    ⟨rfl, rfl, rfl, rfl⟩ (by decide) (by decide) (by decide)
    (fun _ => ⟨by decide, by decide⟩)
  h.elim fun P hP => ⟨P, hP.1, hP.2.2.1, hP.2.2.2.2⟩

/-- C4: when the hook reaches its pruning block and the rangeset of the
wrapper of some restriction clause is empty, the final rangeset is empty
whatever the other clauses and their order, `simple_rel_array`,
`simple_rte_array` and `simple_rel_array_size` are left unchanged, and
`append_child_relation` is not called; the hook does not abort on this
account (it aborts only if an assertion inside the target-list sort fails). -/
theorem rel_hook_empty_rangeset_propagates (b : Bool) (ext : Externals) (s : PlannerState)
    (rti : Nat) (prel : PartRelationInfo) (h : reaches_pruning ext s rti prel)
    (he : ∃ w ∈ clause_wrappers ext (initial_context prel)
            (invoke_original_hook ext s rti).rel.baserestrictinfo, w.rangeset = []) :
    ∃ P, (pathman_rel_pathlist_hook b ext s rti).pruning = some P ∧
      P.wrappers = clause_wrappers ext (initial_context prel)
        (invoke_original_hook ext s rti).rel.baserestrictinfo ∧
      P.ranges = [] ∧
      (pathman_rel_pathlist_hook b ext s rti).state.root.simple_rel_array =
        (invoke_original_hook ext s rti).root.simple_rel_array ∧
      (pathman_rel_pathlist_hook b ext s rti).state.root.simple_rte_array =
        (invoke_original_hook ext s rti).root.simple_rte_array ∧
      (pathman_rel_pathlist_hook b ext s rti).state.root.simple_rel_array_size =
        (invoke_original_hook ext s rti).root.simple_rel_array_size ∧
      appended_children (pathman_rel_pathlist_hook b ext s rti).calls = [] ∧
      (b = false ∨ tlist_asserts_hold (invoke_original_hook ext s rti).rel.reltargetlist →
        (pathman_rel_pathlist_hook b ext s rti).trap = none) := by
  rw [hook_eq_prune b ext s rti prel h]
  have hP := prune_pruning b ext (invoke_original_hook ext s rti) rti prel
    (original_hook_calls ext rti)
  have hnil : ((clause_wrappers ext (initial_context prel)
      (invoke_original_hook ext s rti).rel.baserestrictinfo).map
        (fun w => w.rangeset)).foldl irange_list_intersect (full_rangeset prel) = [] := by
    apply foldl_intersect_of_mem_nil
    obtain ⟨w, hw, hwe⟩ := he
    rw [List.mem_map]
    exact ⟨w, hw, hwe⟩
  have hroot := prune_root b ext (invoke_original_hook ext s rti) rti prel
    (original_hook_calls ext rti) _ hP
  simp only [hnil, expand_for_ranges, ne_eq, not_true_eq_false, if_false] at hroot
  refine ⟨_, hP, rfl, hnil, ?_, ?_, ?_, ?_, ?_⟩
  · rw [hroot]
  · rw [hroot]
  · rw [hroot]
  · rw [prune_appended b ext _ rti prel _ _ hP]
    cases sort_rel_tlist b (invoke_original_hook ext s rti).rel.reltargetlist with
    | error t => simp [original_hook_calls_appended]
    | ok tl => simp [original_hook_calls_appended, hnil, visited_indexes]
  · intro hb
    rw [prune_trap]
    have hsort : ∃ tl, sort_rel_tlist b (invoke_original_hook ext s rti).rel.reltargetlist =
        .ok tl := by
      cases b with
      | false =>
        obtain ⟨out, hout, _⟩ :=
          sort_release_spec (invoke_original_hook ext s rti).rel.reltargetlist
        exact ⟨out, hout⟩
      | true =>
        rcases hb with hb | hb
        · cases hb
        · exact sort_checked_ok _ hb.1 hb.2
    obtain ⟨tl, htl⟩ := hsort
    rw [htl]

/-- C4 at the sample state with the clauses 2, 0 and 3: the wrapper of the
second clause is empty. -/
theorem rel_hook_empty_rangeset_propagates_witness :
    ∃ P, (pathman_rel_pathlist_hook true sample_externals (sample_state [2, 0, 3]) 1).pruning =
        some P ∧
      P.ranges = [] ∧
      appended_children
        (pathman_rel_pathlist_hook true sample_externals (sample_state [2, 0, 3]) 1).calls = [] :=
  have h := rel_hook_empty_rangeset_propagates true sample_externals (sample_state [2, 0, 3]) 1
    sample_prel ⟨rfl, rfl, rfl, rfl⟩ (by decide)
  h.elim fun P hP => ⟨P, hP.1, hP.2.2.1, hP.2.2.2.2.2.2.1⟩

theorem join_hook_cases (ext : Externals) (flags : Flags) (inner_entry : RangeTblEntry)
    (outerrel innerrel : RelOptInfo) (jointype : JoinType) (extra : JoinPathExtraData) :
    ((pathman_join_pathlist_hook ext flags inner_entry outerrel innerrel jointype extra).paramsel
        = none ∧
      passed_paramsel
        (pathman_join_pathlist_hook ext flags inner_entry outerrel innerrel jointype extra).calls
        = []) ∨
    (∃ inner_prel jt calls,
      passed_paramsel calls = [] ∧ walked_clauses calls = [] ∧
      pathman_join_pathlist_hook ext flags inner_entry outerrel innerrel jointype extra =
        { calls := innerrel.pathlist.foldl
            (join_path_step ext outerrel innerrel jt extra
              ((join_clauses ext extra).foldl (join_paramsel_step ext inner_prel)
                { paramsel := 1, wrappers := [], calls := calls }).paramsel)
            ((join_clauses ext extra).foldl (join_paramsel_step ext inner_prel)
                { paramsel := 1, wrappers := [], calls := calls }).calls,
          wrappers := ((join_clauses ext extra).foldl (join_paramsel_step ext inner_prel)
                { paramsel := 1, wrappers := [], calls := calls }).wrappers,
          paramsel := some ((join_clauses ext extra).foldl (join_paramsel_step ext inner_prel)
                { paramsel := 1, wrappers := [], calls := calls }).paramsel }) := by
  have hc : passed_paramsel
      (if ext.set_join_pathlist_next then [Call.set_join_pathlist_next] else []) = [] ∧
      walked_clauses
      (if ext.set_join_pathlist_next then [Call.set_join_pathlist_next] else []) = [] := by
    cases ext.set_join_pathlist_next <;> exact ⟨rfl, rfl⟩
  unfold pathman_join_pathlist_hook join_clauses
  simp only []
  generalize (if ext.set_join_pathlist_next then [Call.set_join_pathlist_next] else []) = calls0
    at hc ⊢
  generalize (if (jointype == JoinType.JOIN_UNIQUE_OUTER ||
    jointype == JoinType.JOIN_UNIQUE_INNER) = true then JoinType.JOIN_INNER else jointype) = jt
  by_cases h1 : (jt == JoinType.JOIN_FULL || !flags.pg_pathman_enable_runtimeappend) = true
  · left
    rw [if_pos h1]
    exact ⟨rfl, hc.1⟩
  rw [if_neg h1]
  by_cases h2 : (innerrel.reloptkind != RelOptKind.RELOPT_BASEREL || !inner_entry.inh) = true
  · left
    rw [if_pos h2]
    exact ⟨rfl, hc.1⟩
  rw [if_neg h2]
  cases h3 : (ext.get_pathman_relation_info inner_entry.relid).1 with
  | none => left; exact ⟨rfl, hc.1⟩
  | some inner_prel => right; exact ⟨inner_prel, jt, calls0, hc.1, hc.2, rfl⟩

/-- C5: selectivity of a conjunction of clauses is combined by
multiplication.  In `pathman_rel_pathlist_hook` (over `baserestrictinfo`) and
in `pathman_join_pathlist_hook` (over `joinclauses`) the `paramsel` computed is
the product of `wrap->paramsel` over the wrappers of the walked clauses (one
per clause), it is 1 for an empty clause list, it lies in `[0,1]` when every
factor does, and every `paramsel` handed to `create_runtimeappend_path` or
`create_runtimemergeappend_path` is that value; when the hooks return early
they make no such call. -/
theorem paramsel_is_product (b : Bool) (ext : Externals) (s : PlannerState) (rti : Nat)
    (flags : Flags) (inner_entry : RangeTblEntry) (outerrel innerrel : RelOptInfo)
    (jointype : JoinType) (extra : JoinPathExtraData) :
    (∀ P, (pathman_rel_pathlist_hook b ext s rti).pruning = some P →
      P.paramsel = (P.wrappers.map (fun w => w.paramsel)).prod ∧
      P.wrappers.length = (invoke_original_hook ext s rti).rel.baserestrictinfo.length ∧
      ((invoke_original_hook ext s rti).rel.baserestrictinfo = [] → P.paramsel = 1) ∧
      ((∀ w ∈ P.wrappers, 0 ≤ w.paramsel ∧ w.paramsel ≤ 1) →
        0 ≤ P.paramsel ∧ P.paramsel ≤ 1) ∧
      ∀ x ∈ passed_paramsel (pathman_rel_pathlist_hook b ext s rti).calls, x = P.paramsel) ∧
    ((pathman_rel_pathlist_hook b ext s rti).pruning = none →
      passed_paramsel (pathman_rel_pathlist_hook b ext s rti).calls = []) ∧
    (∀ sel,
      (pathman_join_pathlist_hook ext flags inner_entry outerrel innerrel jointype extra).paramsel
        = some sel →
      sel = ((pathman_join_pathlist_hook ext flags inner_entry outerrel innerrel jointype
              extra).wrappers.map (fun w => w.paramsel)).prod ∧
      (∃ inner_prel,
        (pathman_join_pathlist_hook ext flags inner_entry outerrel innerrel jointype
          extra).wrappers =
        (join_clauses ext extra).map
          (fun c => (ext.walk_expr_tree c (initial_context inner_prel)).1)) ∧
      walked_clauses (pathman_join_pathlist_hook ext flags inner_entry outerrel innerrel
        jointype extra).calls = join_clauses ext extra ∧
      (join_clauses ext extra = [] → sel = 1) ∧
      ((∀ w ∈ (pathman_join_pathlist_hook ext flags inner_entry outerrel innerrel jointype
              extra).wrappers, 0 ≤ w.paramsel ∧ w.paramsel ≤ 1) → 0 ≤ sel ∧ sel ≤ 1) ∧
      ∀ x ∈ passed_paramsel (pathman_join_pathlist_hook ext flags inner_entry outerrel
        innerrel jointype extra).calls, x = sel) ∧
    ((pathman_join_pathlist_hook ext flags inner_entry outerrel innerrel jointype extra).paramsel
        = none →
      passed_paramsel (pathman_join_pathlist_hook ext flags inner_entry outerrel innerrel
        jointype extra).calls = []) := by
  refine ⟨?_, ?_, ?_, ?_⟩
  · intro P hP
    rcases hook_cases b ext s rti with ⟨prel, hr⟩ | hno
    · rw [hook_eq_prune b ext s rti prel hr] at hP ⊢
      have hP2 := hP
      rw [prune_pruning] at hP2
      cases hP2
      refine ⟨rfl, clause_wrappers_length ext _ _, ?_, ?_, ?_⟩
      · intro he
        simp only [he, clause_wrappers, List.map_nil, List.prod_nil]
      · intro hw
        apply prod_mem_unit_interval
        intro x hx
        rw [List.mem_map] at hx
        obtain ⟨w, hw1, rfl⟩ := hx
        exact hw w hw1
      · exact prune_passed b ext _ rti prel _ _ hP (original_hook_calls_passed ext rti)
    · rw [hno.2.2.2] at hP
      cases hP
  · intro hnone
    rcases hook_cases b ext s rti with ⟨prel, hr⟩ | hno
    · rw [hook_eq_prune b ext s rti prel hr, prune_pruning] at hnone
      cases hnone
    · rw [hno.2.1, original_hook_calls_passed]
  · intro sel hsel
    rcases join_hook_cases ext flags inner_entry outerrel innerrel jointype extra with
      hno | ⟨inner_prel, jt, calls, hc1, hc2, heq⟩
    · rw [hno.1] at hsel
      cases hsel
    · rw [heq] at hsel ⊢
      simp only [Option.some.injEq] at hsel
      obtain ⟨f1, f2, f3, f4⟩ := join_sel_foldl ext inner_prel (join_clauses ext extra)
        { paramsel := 1, wrappers := [], calls := calls }
      simp only [List.nil_append, one_mul] at f1 f2
      have hpass := join_path_foldl ext outerrel innerrel jt extra sel innerrel.pathlist
        ((join_clauses ext extra).foldl (join_paramsel_step ext inner_prel)
          { paramsel := 1, wrappers := [], calls := calls }).calls
        (by rw [f3, hc1]; intro x hx; cases hx)
      subst hsel
      refine ⟨?_, ⟨inner_prel, f1⟩, ?_, ?_, ?_, hpass.1⟩
      · simp only [f1, f2]
      · simp only [hpass.2, f4, hc2, List.nil_append]
      · intro he
        rw [f2, he]
        simp
      · intro hw
        rw [f2]
        apply prod_mem_unit_interval
        intro x hx
        rw [List.mem_map] at hx
        obtain ⟨w, hw1, rfl⟩ := hx
        exact hw w (by simp only [f1]; exact hw1)
  · intro hnone
    rcases join_hook_cases ext flags inner_entry outerrel innerrel jointype extra with
      hno | ⟨inner_prel, jt, calls, hc1, hc2, heq⟩
    · exact hno.2
    · rw [heq] at hnone
      cases hnone

/-- C9: when the final rangeset is a list of ascending, pairwise disjoint
intervals with `lower <= upper` inside `[0, children_count - 1]`, the calls of
`append_child_relation` are exactly the ascending enumeration of the covered
indexes, each once with child Oid `dsm_arr[i]` and `0 <= i < children_count`;
their number is `irange_list_length(ranges)`, the number of NULL slots by
which `simple_rel_array` and `simple_rte_array` are grown behind the copied
old slots, and by which `simple_rel_array_size` is increased. -/
theorem rel_hook_one_child_per_index (b : Bool) (ext : Externals) (s : PlannerState)
    (rti : Nat) (prel : PartRelationInfo) (P : Pruning)
    (h : reaches_pruning ext s rti prel)
    (hP : (pathman_rel_pathlist_hook b ext s rti).pruning = some P)
    (hwf : rangeset_well_formed P.ranges prel.children_count)
    (ha : b = true → tlist_asserts_hold (invoke_original_hook ext s rti).rel.reltargetlist)
    (hrel : (invoke_original_hook ext s rti).root.simple_rel_array.length =
      (invoke_original_hook ext s rti).root.simple_rel_array_size)
    (hrte : (invoke_original_hook ext s rti).root.simple_rte_array.length =
      (invoke_original_hook ext s rti).root.simple_rel_array_size) :
    appended_children (pathman_rel_pathlist_hook b ext s rti).calls =
      (visited_indexes P.ranges).map (fun i => (i, dsm_arr_at prel.children i)) ∧
    (visited_indexes P.ranges).Sorted (fun i j => i < j) ∧
    (∀ i, i ∈ visited_indexes P.ranges ↔ irange_list_covers P.ranges i) ∧
    (∀ i ∈ visited_indexes P.ranges, 0 ≤ i ∧ i < prel.children_count) ∧
    (appended_children (pathman_rel_pathlist_hook b ext s rti).calls).length =
      irange_list_length P.ranges ∧
    (pathman_rel_pathlist_hook b ext s rti).state.root.simple_rel_array_size =
      (invoke_original_hook ext s rti).root.simple_rel_array_size +
        irange_list_length P.ranges ∧
    (pathman_rel_pathlist_hook b ext s rti).state.root.simple_rel_array =
      (invoke_original_hook ext s rti).root.simple_rel_array ++
        List.replicate (irange_list_length P.ranges) none ∧
    (pathman_rel_pathlist_hook b ext s rti).state.root.simple_rte_array =
      (invoke_original_hook ext s rti).root.simple_rte_array ++
        List.replicate (irange_list_length P.ranges) none := by
  have hsort : ∃ tl, sort_rel_tlist b (invoke_original_hook ext s rti).rel.reltargetlist =
      .ok tl := by
    cases b with
    | false =>
      obtain ⟨out, hout, _⟩ := sort_release_spec (invoke_original_hook ext s rti).rel.reltargetlist
      exact ⟨out, hout⟩
    | true => exact sort_checked_ok _ (ha rfl).1 (ha rfl).2
  obtain ⟨tl, htl⟩ := hsort
  rw [hook_eq_prune b ext s rti prel h] at hP ⊢
  have happ := prune_appended b ext _ rti prel _ P hP
  rw [htl] at happ
  simp only [original_hook_calls_appended, List.nil_append] at happ
  have hroot := prune_root b ext _ rti prel _ P hP
  have hexp : expand_for_ranges (invoke_original_hook ext s rti).root P.ranges =
      { (invoke_original_hook ext s rti).root with
        simple_rel_array_size := (invoke_original_hook ext s rti).root.simple_rel_array_size +
          irange_list_length P.ranges,
        simple_rel_array := (invoke_original_hook ext s rti).root.simple_rel_array ++
          List.replicate (irange_list_length P.ranges) none,
        simple_rte_array := (invoke_original_hook ext s rti).root.simple_rte_array ++
          List.replicate (irange_list_length P.ranges) none } := by
    unfold expand_for_ranges
    by_cases hr : P.ranges = []
    · simp [hr, irange_list_length, irange_list_indexes]
    · simp only [ne_eq, hr, not_false_eq_true, if_true, expand_simple_arrays]
      have e1 := copy_relations_grow (invoke_original_hook ext s rti).root.simple_rel_array
        (irange_list_length P.ranges)
      have e2 := copy_relations_grow (invoke_original_hook ext s rti).root.simple_rte_array
        (irange_list_length P.ranges)
      rw [hrel] at e1
      rw [hrte] at e2
      rw [e1, e2]
  rw [hexp] at hroot
  refine ⟨happ, visited_indexes_sorted _ hwf.1, mem_visited_indexes _, ?_, ?_, ?_, ?_, ?_⟩
  · intro i hi
    obtain ⟨r, hr, h1, h2⟩ := (mem_visited_indexes _ i).mp hi
    have := hwf.2 r hr
    omega
  · rw [happ, List.length_map, visited_indexes_length _ hwf.1]
  · rw [hroot]
  · rw [hroot]
  · rw [hroot]

/-- C9 at the sample state with the clauses 2 and 3: the partitions 1 and 2
are appended and the arrays grow from three to five slots. -/
theorem rel_hook_one_child_per_index_witness :
    appended_children
        (pathman_rel_pathlist_hook true sample_externals (sample_state [2, 3]) 1).calls =
      [(1, some 16402), (2, some 16403)] ∧
    (pathman_rel_pathlist_hook true sample_externals
        (sample_state [2, 3]) 1).state.root.simple_rel_array =
      [none, some 1, some 2] ++ List.replicate (irange_list_length sample_pruning.ranges) none :=
  have h := rel_hook_one_child_per_index true sample_externals (sample_state [2, 3]) 1
    sample_prel sample_pruning ⟨rfl, rfl, rfl, rfl⟩
    (by rw [hook_eq_prune true sample_externals (sample_state [2, 3]) 1 sample_prel
          ⟨rfl, rfl, rfl, rfl⟩]
        exact prune_pruning true sample_externals _ 1 sample_prel _)
    ⟨by decide, by decide⟩ (fun _ => ⟨by decide, by decide⟩) rfl rfl
  ⟨h.1.trans (by decide), h.2.2.2.2.2.2.1⟩

end Pathman
